import Mathlib

/-!
# Verification of the `symbolizer` tokenizer and cursor parser

A shallow embedding of the Go package `symbolizer`: a character-class lexer
(`Lexer.next`) producing `Token`s, and a two-token-lookahead `ParserS` with
`Split` and `Unwrap` operations.

Conventions of the embedding:

* A Go `rune` is an `Int` (its Unicode code point); the End-of-input
  sentinel `rune(TokenEoF)` is `-1`, which no real input character equals
  (Go's `[]rune(input)` yields only non-negative code points, captured by
  the `Nonneg` predicate where a theorem needs it).
* A Go string of runes is a `List Int` of code points.
* Go's runtime panic on an out-of-range slice index is modelled by an
  `Option`: `Lexer.peek` returns `none` exactly when `symbols[cursor+1]`
  would be out of range, and that `none` propagates through `Lexer.next`
  and the parser operations (`.fault` in their result types).
* The character loops of the scanner (`for unicode.IsDigit(...) { ... }`
  and friends) are embedded with an explicit gas argument whose initial
  value, `symbols.length + 1 - cursor`, over-approximates the number of
  iterations the Go loop can make (each iteration moves the cursor forward
  on a finite tape), so the embedded functions are structurally recursive
  and compute by `decide`/`rfl`.
* Go's `unicode.IsLetter`/`IsDigit`/`IsSpace` are embedded exactly on the
  Latin-1 range (all concrete inputs in this development are Latin-1);
  code points above `0xFF` are classified as non-letters here.  The
  universally quantified theorems do not depend on the extension of these
  predicates.
* A Go `map[string]TokenKind` is an association list with unique keys,
  `Option`-wrapped so that a `nil` map (`new(parseConfig)`) is `none`;
  writing into a `nil` map panics in Go, which the option constructor
  models with `none`.
-/

namespace Symbolizer

/-! ## Token kinds (tokens.go) -/

def TokenEoF : Int := -1
def TokenIdent : Int := -2
def TokenNumber : Int := -3
def TokenString : Int := -4
def TokenBoolean : Int := -5
def TokenHexNumber : Int := -6

/-- Modelled from the spec: the `TokenMalformed` constant itself is absent
from the sources at hand (only its uses in the lexer and tests are), and the
spec lists the singleton kinds in order "End-of-input, Identifier, Number,
String, Boolean, Hexadecimal-number, Malformed" descending from `-1`, which
places Malformed at `-7`. -/
def TokenMalformed : Int := -7

/-- A lexical token: `Kind`, `Literal` (the matched code points) and
`Position` (rune index of its first character). -/
structure Token where
  kind : Int
  literal : List Int
  position : Nat
deriving DecidableEq

/-- `UnicodeToken` of tokens.go. -/
def UnicodeToken (c : Int) (pos : Nat) : Token := ⟨c, [c], pos⟩

/-- `EOFToken` of tokens.go. -/
def EOFToken (pos : Nat) : Token := ⟨TokenEoF, [], pos⟩

/-- The zero value of Go's `Token` struct. -/
def zeroToken : Token := ⟨0, [], 0⟩

/-- `Enclosure` of tokens.go: an ordered start/stop pair of code points. -/
structure Enclosure where
  start : Int
  stop : Int
deriving DecidableEq

/-- `NewEnclosure`: fails (`none`) when start and stop are identical. -/
def NewEnclosure (s t : Int) : Option Enclosure :=
  if s = t then none else some ⟨s, t⟩

def EnclosureParens : Enclosure := ⟨40, 41⟩

def EnclosureSquare : Enclosure := ⟨91, 93⟩

def EnclosureCurly : Enclosure := ⟨123, 125⟩

def EnclosureAngle : Enclosure := ⟨60, 62⟩

/-! ## Character classes (Go `unicode` package, Latin-1 range) -/

/-- `unicode.IsSpace` restricted to Latin-1: TAB LF VT FF CR SP NEL NBSP. -/
def isSpace (c : Int) : Bool :=
  c == 9 || c == 10 || c == 11 || c == 12 || c == 13 || c == 32 ||
  c == 0x85 || c == 0xA0

/-- `unicode.IsDigit` restricted to Latin-1 (exactly ASCII `0`-`9`). -/
def isDigit (c : Int) : Bool := 48 ≤ c && c ≤ 57

/-- `unicode.IsLetter` restricted to Latin-1. -/
def isLetter (c : Int) : Bool :=
  (65 ≤ c && c ≤ 90) || (97 ≤ c && c ≤ 122) ||
  c == 0xAA || c == 0xB5 || c == 0xBA ||
  (0xC0 ≤ c && c ≤ 0xD6) || (0xD8 ≤ c && c ≤ 0xF6) ||
  (0xF8 ≤ c && c ≤ 0xFF)

/-- `isDecChar` of lexer.go. -/
def isDecChar (c : Int) : Bool := 48 ≤ c && c ≤ 57

/-- `isHexChar` of lexer.go. -/
def isHexChar (c : Int) : Bool :=
  (97 ≤ c && c ≤ 102) || (65 ≤ c && c ≤ 70) || isDecChar c

/-- Identifier-continuation test inlined in `scanIdentOrKeyword`:
letter, digit or underscore. -/
def isIdentChar (c : Int) : Bool := isLetter c || isDigit c || c == 95

/-! ## Configuration (options.go) -/

/-- `parseConfig`: whitespace-elision flag and the keyword table.
`none` models Go's `nil` map. -/
structure ParseConfig where
  eatSpaces : Bool
  keywords : Option (List (List Int × Int))
deriving DecidableEq

/-- Insert-or-replace on an association list (one `m[k] = v` map write). -/
def upsert (m : List (List Int × Int)) (k : List Int) (v : Int) :
    List (List Int × Int) :=
  if m.any (fun kv => kv.1 == k) then
    m.map (fun kv => if kv.1 == k then (k, v) else kv)
  else m ++ [(k, v)]

/-- A `ParserOption`; `none` models a Go panic while applying the option. -/
def ParserOption : Type := ParseConfig → Option ParseConfig

/-- The `Keywords` option of options.go: ranges over the user map and
writes each entry into `config.keywords`.  Writing into a `nil` map panics
in Go, modelled by `none` (a `range` over an empty map does nothing). -/
def Keywords (ks : List (List Int × Int)) : ParserOption := fun cfg =>
  match cfg.keywords with
  | none => if ks.isEmpty then some cfg else none
  | some m => some { cfg with keywords := some (ks.foldl (fun m kv => upsert m kv.1 kv.2) m) }

/-- The `IgnoreWhitespaces` option of options.go. -/
def IgnoreWhitespaces : ParserOption := fun cfg =>
  some { cfg with eatSpaces := true }

/-- Code points of a Lean string literal, for writing concrete inputs. -/
def codes (s : String) : List Int := s.data.map (fun ch => (ch.toNat : Int))

/-- `newParseConfig` of options.go: seeds `"true"`/`"false"` to
`TokenBoolean`, then applies the options in order. -/
def newParseConfig (opts : List ParserOption) : Option ParseConfig :=
  opts.foldlM (fun c o => o c)
    ⟨false, some [(codes "true", TokenBoolean), (codes "false", TokenBoolean)]⟩

/-! ## The lexer (lexer.go) -/

/-- The token scanner: a cursor over the rune tape plus its config. -/
structure Lexer where
  cursor : Nat
  symbols : List Int
  config : ParseConfig
deriving DecidableEq

/-- `lexer.done`: the tape is exhausted. -/
def Lexer.done (lx : Lexer) : Bool := lx.symbols.length ≤ lx.cursor

/-- `lexer.char`: the rune under the cursor, or the EoF sentinel `-1`. -/
def Lexer.char (lx : Lexer) : Int :=
  if lx.done then -1 else lx.symbols.getD lx.cursor 0

/-- `lexer.peek`: the rune after the cursor.  The Go code checks only
`done()` before reading `symbols[cursor+1]`, so when the cursor is on the
last rune the read is out of range — a runtime panic, modelled as `none`. -/
def Lexer.peek (lx : Lexer) : Option Int :=
  if lx.done then some (-1)
  else if lx.cursor + 1 < lx.symbols.length then
    some (lx.symbols.getD (lx.cursor + 1) 0)
  else none

/-- `lexer.advanceCursor`. -/
def Lexer.adv (lx : Lexer) : Lexer := { lx with cursor := lx.cursor + 1 }

/-- `lexer.collectBetween(start, stop)`: `string(symbols[start:stop])`. -/
def Lexer.collectBetween (lx : Lexer) (start stop : Nat) : List Int :=
  (lx.symbols.take stop).drop start

/-- One Go character loop `for pred(char()) { advanceCursor() }`, with gas.
All four scanner loops (`consumeSpaces` and the identifier, decimal and hex
scans) have this shape. -/
def Lexer.chomp (pred : Int → Bool) : Nat → Lexer → Lexer
  | 0, lx => lx
  | g + 1, lx => if pred lx.char then Lexer.chomp pred g lx.adv else lx

/-- Gas that bounds every remaining loop iteration on the tape. -/
def Lexer.gas (lx : Lexer) : Nat := lx.symbols.length + 1 - lx.cursor

/-- `lexer.consumeSpaces`. -/
def Lexer.consumeSpaces (lx : Lexer) : Lexer := Lexer.chomp isSpace lx.gas lx

/-- `lexer.lookupKeyword`. -/
def lookupKeyword (cfg : ParseConfig) (ident : List Int) : Int :=
  match cfg.keywords with
  | none => TokenIdent
  | some ks =>
    match ks.find? (fun kv => kv.1 == ident) with
    | some kv => kv.2
    | none => TokenIdent

/-- `lexer.scanIdentOrKeyword`. -/
def Lexer.scanIdentOrKeyword (lx : Lexer) : Token × Lexer :=
  let start := lx.cursor
  let lx2 := Lexer.chomp isIdentChar lx.gas lx
  let ident := lx2.collectBetween start lx2.cursor
  (⟨lookupKeyword lx.config ident, ident, start⟩, lx2)

/-- `lexer.scanNumeric`: optional `-` sign, then a greedy digit run. -/
def Lexer.scanNumeric (lx : Lexer) : Token × Lexer :=
  let start := lx.cursor
  let lx1 := if lx.char == 45 then lx.adv else lx
  let lx2 := Lexer.chomp isDecChar lx1.gas lx1
  (⟨TokenNumber, lx2.collectBetween start lx2.cursor, start⟩, lx2)

/-- `lexer.scanHexadecimal`: consume `0x`, then a greedy hex run. -/
def Lexer.scanHexadecimal (lx : Lexer) : Token × Lexer :=
  let start := lx.cursor
  let lx1 := lx.adv.adv
  let lx2 := Lexer.chomp isHexChar lx1.gas lx1
  (⟨TokenHexNumber, lx2.collectBetween start lx2.cursor, start⟩, lx2)

/-- The body of `scanString`'s loop: advance, then stop on a quote (cursor
left on the closing quote), or produce a Malformed token and step the
cursor back when the tape runs out. -/
def Lexer.scanStrGas (start : Nat) : Nat → Lexer → Token × Lexer
  | 0, lx =>
    (⟨TokenMalformed, lx.collectBetween start lx.cursor, start⟩,
      { lx with cursor := lx.cursor - 1 })
  | g + 1, lx =>
    let lx1 := lx.adv
    if lx1.char == 34 then
      (⟨TokenString, lx1.collectBetween start (lx1.cursor + 1), start⟩, lx1)
    else if lx1.char == -1 then
      (⟨TokenMalformed, lx1.collectBetween start lx1.cursor, start⟩,
        { lx1 with cursor := lx1.cursor - 1 })
    else Lexer.scanStrGas start g lx1

/-- `lexer.scanString`. -/
def Lexer.scanString (lx : Lexer) : Token × Lexer :=
  Lexer.scanStrGas lx.cursor lx.gas lx

/-- The switch of `lexer.next`, after the optional whitespace elision:
classify the current rune in the source's case order and return the token
together with the advanced lexer.  `none` models the out-of-range panic
inside `peek`. -/
def Lexer.nextCore (lx : Lexer) : Option (Token × Lexer) :=
  if lx.char == -1 then
    some (EOFToken lx.cursor, lx.adv)
  else if lx.char == 34 then
    some (lx.scanString.1, lx.scanString.2.adv)
  else if lx.char == 48 then
    match lx.peek with
    | none => none
    | some p =>
      if p == 120 then some lx.scanHexadecimal else some lx.scanNumeric
  else if isDigit lx.char then
    some lx.scanNumeric
  else if isLetter lx.char then
    some lx.scanIdentOrKeyword
  else if lx.char == 45 then
    match lx.peek with
    | none => none
    | some p =>
      if isDecChar p then some lx.scanNumeric
      else some (UnicodeToken lx.char lx.cursor, lx.adv)
  else
    some (UnicodeToken lx.char lx.cursor, lx.adv)

/-- The whitespace-elision prologue of `lexer.next`. -/
def Lexer.postSpace (lx0 : Lexer) : Lexer :=
  if lx0.config.eatSpaces then lx0.consumeSpaces else lx0

/-- `lexer.next`: optional whitespace elision, then the classifier switch. -/
def Lexer.next (lx0 : Lexer) : Option (Token × Lexer) :=
  lx0.postSpace.nextCore

/-- `lexer.tokens`, with gas: collect tokens up to and including the first
End-of-input-kind token.  `none` is a scanner fault or gas exhaustion;
`symbols.length + 1` gas always suffices (each non-EoF token consumes at
least one rune). -/
def Lexer.tokensGas : Nat → Lexer → Option (List Token)
  | 0, _ => none
  | g + 1, lx =>
    match lx.next with
    | none => none
    | some (t, lx') =>
      if t.kind == -1 then some [t]
      else
        match Lexer.tokensGas g lx' with
        | none => none
        | some ts => some (t :: ts)

/-- The token stream of a lexer state, to and including the first EoF-kind
token. -/
def Lexer.stream (lx : Lexer) : Option (List Token) :=
  Lexer.tokensGas (lx.symbols.length + 1) lx

/-- All input runes are genuine characters (what Go's `[]rune(input)`
guarantees: code points are never negative). -/
def Nonneg (symbols : List Int) : Prop := ∀ c ∈ symbols, 0 ≤ c

instance (symbols : List Int) : Decidable (Nonneg symbols) :=
  inferInstanceAs (Decidable (∀ c ∈ symbols, 0 ≤ c))

/-! ## The cursor parser (parser.go) -/

/-- `Parser`: the scanner plus the buffered current and peek tokens. -/
structure ParserS where
  scanner : Lexer
  curr : Token
  next : Token
deriving DecidableEq

/-- `Parser.Advance`: shift peek into current, draw one token.  `none`
propagates a scanner fault. -/
def ParserS.advance (p : ParserS) : Option ParserS :=
  match p.scanner.next with
  | none => none
  | some (t, lx') => some ⟨lx', p.next, t⟩

/-- `NewParser`'s priming: from a fresh lexer over `symbols`, advance the
zero-valued parser twice so `curr` and `next` hold the first two tokens. -/
def mkParser (symbols : List Int) (cfg : ParseConfig) : Option ParserS :=
  match ParserS.advance ⟨⟨0, symbols, cfg⟩, zeroToken, zeroToken⟩ with
  | none => none
  | some p1 => p1.advance

/-- `NewParser` as written in parser.go: the config is `new(parseConfig)`
(no keyword defaults), the options are applied to it, then the parser is
primed.  Note it does not call `newParseConfig`. -/
def NewParser (symbols : List Int) (opts : List ParserOption) : Option ParserS :=
  match opts.foldlM (fun c o => o c) (⟨false, none⟩ : ParseConfig) with
  | none => none
  | some cfg => mkParser symbols cfg

/-- `Parser.IsCursor`. -/
def ParserS.isCursor (p : ParserS) (t : Int) : Bool := p.curr.kind == t

/-- `Parser.IsPeek`. -/
def ParserS.isPeek (p : ParserS) (t : Int) : Bool := p.next.kind == t

/-- UTF-8 length of one code point, as Go's `string([]rune)` encodes it. -/
def utf8Len (c : Int) : Nat :=
  if c < 0x80 then 1 else if c < 0x800 then 2 else if c < 0x10000 then 3 else 4

/-- UTF-8 bytes of one code point (valid scalar values; Go substitutes
U+FFFD for invalid runes, which no theorem here exercises). -/
def utf8Bytes (c : Int) : List Int :=
  if c < 0x80 then [c]
  else if c < 0x800 then [0xC0 + c / 64, 0x80 + c % 64]
  else if c < 0x10000 then
    [0xE0 + c / 4096, 0x80 + c / 64 % 64, 0x80 + c % 64]
  else
    [0xF0 + c / 262144, 0x80 + c / 4096 % 64, 0x80 + c / 64 % 64, 0x80 + c % 64]

/-- The UTF-8 encoding of the rune tape: Go's `string(parser.scanner.symbols)`. -/
def encodeUtf8 (symbols : List Int) : List Int := (symbols.map utf8Bytes).flatten

/-- `Parser.Unparsed` as written in parser.go:
`string(parser.scanner.symbols)[parser.curr.Position:]` — a **byte** slice
of the UTF-8 encoding at the rune index `curr.Position`.  `none` models the
panic when the index exceeds the byte length. -/
def ParserS.Unparsed (p : ParserS) : Option (List Int) :=
  if p.curr.position ≤ (encodeUtf8 p.scanner.symbols).length then
    some ((encodeUtf8 p.scanner.symbols).drop p.curr.position)
  else none

/-- Result of `Parser.Split`: the splits and the drained parser, a scanner
fault, or gas exhaustion (the Go loop still running). -/
inductive SplitRes where
  | ok : List (List Int) → ParserS → SplitRes
  | fault : SplitRes
  | fuelOut : SplitRes
deriving DecidableEq

/-- The loop of `Parser.Split`, with gas.  Case order is the source's:
the delimiter case precedes the End-of-input case, so a delimiter equal to
`TokenEoF` shadows the loop exit. -/
def ParserS.splitGas (delim : Int) : Nat → List (List Int) → List Int → ParserS → SplitRes
  | 0, _, _, _ => .fuelOut
  | g + 1, splits, acc, p =>
    if p.curr.kind == delim then
      match p.advance with
      | none => .fault
      | some p' => ParserS.splitGas delim g (splits ++ [acc]) [] p'
    else if p.curr.kind == -1 then
      .ok (splits ++ [acc]) p
    else
      match p.advance with
      | none => .fault
      | some p' => ParserS.splitGas delim g splits (acc ++ p.curr.literal) p'

/-- `Parser.Split` with the linear gas budget `symbols.length + 3`. -/
def ParserS.Split (p : ParserS) (delim : Int) : SplitRes :=
  ParserS.splitGas delim (p.scanner.symbols.length + 3) [] [] p

/-- The two failure conditions of `Parser.Unwrap`. -/
inductive UnwrapErr where
  | missingStart : UnwrapErr
  | missingEnd : UnwrapErr
deriving DecidableEq

/-- Result of `Parser.Unwrap`: the unwrapped runes and the parser (its
cursor on the closing token), one of the two error conditions with the
parser state at the failure, a scanner fault, or gas exhaustion. -/
inductive UnwrapRes where
  | ok : List Int → ParserS → UnwrapRes
  | err : UnwrapErr → ParserS → UnwrapRes
  | fault : UnwrapRes
  | fuelOut : UnwrapRes
deriving DecidableEq

/-- The loop of `Parser.Unwrap`, with gas: update the nesting level in the
source's case order (start, stop, End-of-input), then — as the source does
after every non-returning switch execution — return the slice
`symbols[startPos:curr.Position]` if the nesting level is zero, otherwise
advance and continue. -/
def ParserS.unwrapGas (startK stopK : Int) (startPos : Nat) :
    Nat → Int → ParserS → UnwrapRes
  | 0, _, _ => .fuelOut
  | g + 1, nesting, p =>
    if p.curr.kind == startK then
      if nesting + 1 == 0 then
        .ok (p.scanner.collectBetween startPos p.curr.position) p
      else
        match p.advance with
        | none => .fault
        | some p' => ParserS.unwrapGas startK stopK startPos g (nesting + 1) p'
    else if p.curr.kind == stopK then
      if nesting - 1 == 0 then
        .ok (p.scanner.collectBetween startPos p.curr.position) p
      else
        match p.advance with
        | none => .fault
        | some p' => ParserS.unwrapGas startK stopK startPos g (nesting - 1) p'
    else if p.curr.kind == -1 then
      .err .missingEnd p
    else
      if nesting == 0 then
        .ok (p.scanner.collectBetween startPos p.curr.position) p
      else
        match p.advance with
        | none => .fault
        | some p' => ParserS.unwrapGas startK stopK startPos g nesting p'

/-- `Parser.Unwrap`: require the current token to be the enclosure opener
(otherwise fail with `missingStart`, the parser untouched), record the
start offset one past it, and run the nesting loop with the linear gas
budget `symbols.length + 3`. -/
def ParserS.Unwrap (p : ParserS) (enc : Enclosure) : UnwrapRes :=
  if p.curr.kind == enc.start then
    match p.advance with
    | none => .fault
    | some p1 =>
      ParserS.unwrapGas enc.start enc.stop (p.curr.position + 1)
        (p.scanner.symbols.length + 3) 1 p1
  else .err .missingStart p

/-! ## Specification-side functions used in theorem statements -/

/-- Concatenation of the literals of a token list. -/
def concatLits (ts : List Token) : List Int :=
  ts.foldr (fun t acc => t.literal ++ acc) []

/-- Number of delimiter-kind tokens up to (excluding) the first
End-of-input-kind token. -/
def countToEoF (delim : Int) : List Token → Nat
  | [] => 0
  | t :: ts =>
    if t.kind = -1 then 0
    else (if t.kind = delim then 1 else 0) + countToEoF delim ts

/-- Index of the first double quote in a list. -/
def firstQuoteIdx : List Int → Option Nat
  | [] => none
  | c :: r => if c = 34 then some 0 else (firstQuoteIdx r).map (· + 1)

/-- Index of the first double quote at or after position `i`. -/
def findQuoteFrom (symbols : List Int) (i : Nat) : Option Nat :=
  (firstQuoteIdx (symbols.drop i)).map (· + i)

/-- Walk a token list with the unwrap nesting discipline (the source's case
order: start, stop, then EoF) and return the token at which the nesting
level reaches zero; `none` when End-of-input-kind is reached first (or the
list ends). -/
def nestResolve (startK stopK : Int) : Int → List Token → Option Token
  | _, [] => none
  | n, t :: ts =>
    if t.kind = startK then nestResolve startK stopK (n + 1) ts
    else if t.kind = stopK then
      if n - 1 = 0 then some t else nestResolve startK stopK (n - 1) ts
    else if t.kind = -1 then none
    else nestResolve startK stopK n ts

/-- The conceptual token stream of a parser: the two buffered tokens
followed by the scanner's remaining stream. -/
def ParserS.streamOK (p : ParserS) (ts : List Token) : Prop :=
  p.scanner.stream = some ts

/-- The splits of a completed `Split` result. -/
def SplitRes.splits? : SplitRes → Option (List (List Int))
  | .ok s _ => some s
  | _ => none

/-- The unwrapped runes of a successful `Unwrap` result. -/
def UnwrapRes.value? : UnwrapRes → Option (List Int)
  | .ok s _ => some s
  | _ => none

/-- The parser state carried by an `Unwrap` result. -/
def UnwrapRes.state? : UnwrapRes → Option ParserS
  | .ok _ p => some p
  | .err _ p => some p
  | _ => none

/-- The error condition of a failed `Unwrap` result. -/
def UnwrapRes.errc? : UnwrapRes → Option UnwrapErr
  | .err e _ => some e
  | _ => none

/-- Termination measure for the parser loops: remaining tape plus one unit
for each buffered token not yet known to be End-of-input. -/
def pMeasure (p : ParserS) : Nat :=
  (p.scanner.symbols.length - p.scanner.cursor) +
    (if p.curr.kind = -1 then 0 else 1) + (if p.next.kind = -1 then 0 else 1)

/-- `Parser.Split` with the End-of-input kind as delimiter never leaves its
loop: every gas budget is exhausted. -/
def SplitDiverges (symbols : List Int) (cfg : ParseConfig) (delim : Int) : Prop :=
  ∀ g acc splits p, mkParser symbols cfg = some p →
    ParserS.splitGas delim g splits acc p = .fuelOut

/-! ## Basic facts about slices and the character loops -/

theorem slice_length {l : List Int} {a b : Nat} (hab : a ≤ b) (hb : b ≤ l.length) :
    ((l.take b).drop a).length = b - a := by
  simp [List.length_drop, List.length_take]
  omega

theorem slice_glue {l : List Int} {a b : Nat} (hab : a ≤ b) :
    (l.take b).drop a ++ l.drop b = l.drop a := by
  rw [List.drop_take]
  have hb : l.drop b = (l.drop a).drop (b - a) := by
    rw [List.drop_drop]
    congr 1
    omega
  rw [hb, List.take_append_drop]

theorem slice_singleton {l : List Int} {a : Nat} (ha : a < l.length) :
    (l.take (a + 1)).drop a = [l.getD a 0] := by
  rw [List.drop_take, List.getD_eq_getElem l 0 ha, List.drop_eq_getElem_cons ha]
  have h1 : a + 1 - a = 1 := by omega
  rw [h1]
  rfl

theorem chomp_symbols (pred : Int → Bool) (g : Nat) (lx : Lexer) :
    (Lexer.chomp pred g lx).symbols = lx.symbols := by
  induction g generalizing lx with
  | zero => rfl
  | succ g ih =>
    rw [Lexer.chomp]
    split
    · rw [ih]; rfl
    · rfl

theorem chomp_config (pred : Int → Bool) (g : Nat) (lx : Lexer) :
    (Lexer.chomp pred g lx).config = lx.config := by
  induction g generalizing lx with
  | zero => rfl
  | succ g ih =>
    rw [Lexer.chomp]
    split
    · rw [ih]; rfl
    · rfl

theorem chomp_cursor_le (pred : Int → Bool) (g : Nat) (lx : Lexer) :
    lx.cursor ≤ (Lexer.chomp pred g lx).cursor := by
  induction g generalizing lx with
  | zero => exact le_refl _
  | succ g ih =>
    rw [Lexer.chomp]
    split
    · exact le_trans (by simp [Lexer.adv]) (ih lx.adv)
    · exact le_refl _

theorem chomp_cursor_ubound {pred : Int → Bool} (hpred : pred (-1) = false)
    (g : Nat) (lx : Lexer) (h : lx.cursor ≤ lx.symbols.length) :
    (Lexer.chomp pred g lx).cursor ≤ lx.symbols.length := by
  induction g generalizing lx with
  | zero => exact h
  | succ g ih =>
    rw [Lexer.chomp]
    split
    · rename_i hp
      have hlt : lx.cursor < lx.symbols.length := by
        by_contra hge
        push_neg at hge
        have : lx.char = -1 := by
          unfold Lexer.char Lexer.done
          simp [show lx.symbols.length ≤ lx.cursor by omega]
        rw [this, hpred] at hp
        exact absurd hp (by simp)
      have := ih lx.adv (by simp [Lexer.adv]; omega)
      simpa [Lexer.adv] using this
    · exact h

/-- With enough gas, a character loop runs to completion: the predicate
fails at the resulting cursor. -/
theorem chomp_complete {pred : Int → Bool} (hpred : pred (-1) = false)
    (g : Nat) (lx : Lexer) (h : lx.symbols.length < lx.cursor + g) :
    pred (Lexer.chomp pred g lx).char = false := by
  induction g generalizing lx with
  | zero =>
    have : lx.char = -1 := by
      unfold Lexer.char Lexer.done
      simp [show lx.symbols.length ≤ lx.cursor by omega]
    rw [Lexer.chomp, this, hpred]
  | succ g ih =>
    rw [Lexer.chomp]
    split
    · rename_i hp
      have hlt : lx.cursor < lx.symbols.length := by
        by_contra hge
        push_neg at hge
        have : lx.char = -1 := by
          unfold Lexer.char Lexer.done
          simp [show lx.symbols.length ≤ lx.cursor by omega]
        rw [this, hpred] at hp
        exact absurd hp (by simp)
      exact ih lx.adv (by simp [Lexer.adv]; omega)
    · rename_i hp
      simpa using hp

theorem isSpace_neg : isSpace (-1) = false := by decide

theorem isIdentChar_neg : isIdentChar (-1) = false := by decide

theorem isDecChar_neg : isDecChar (-1) = false := by decide

theorem isHexChar_neg : isHexChar (-1) = false := by decide

/-- When the current character is not whitespace, `consumeSpaces` does not
move. -/
theorem consumeSpaces_nonspace {lx : Lexer} (h : isSpace lx.char = false) :
    lx.consumeSpaces = lx := by
  unfold Lexer.consumeSpaces Lexer.gas
  cases hg : lx.symbols.length + 1 - lx.cursor with
  | zero => rfl
  | succ g => rw [Lexer.chomp, h]; simp

theorem consumeSpaces_symbols (lx : Lexer) :
    lx.consumeSpaces.symbols = lx.symbols := chomp_symbols _ _ _

theorem consumeSpaces_config (lx : Lexer) :
    lx.consumeSpaces.config = lx.config := chomp_config _ _ _

theorem consumeSpaces_cursor_le (lx : Lexer) :
    lx.cursor ≤ lx.consumeSpaces.cursor := chomp_cursor_le _ _ _

theorem consumeSpaces_complete (lx : Lexer) :
    isSpace lx.consumeSpaces.char = false := by
  unfold Lexer.consumeSpaces Lexer.gas
  by_cases h : lx.cursor ≤ lx.symbols.length
  · exact chomp_complete isSpace_neg _ _ (by omega)
  · push_neg at h
    have hz : lx.symbols.length + 1 - lx.cursor = 0 := by omega
    rw [hz, Lexer.chomp]
    have : lx.char = -1 := by
      unfold Lexer.char Lexer.done
      simp [show lx.symbols.length ≤ lx.cursor by omega]
    rw [this]; decide

/-! ## Facts about the individual scan functions -/

theorem adv_cursor (lx : Lexer) : lx.adv.cursor = lx.cursor + 1 := rfl

theorem adv_symbols (lx : Lexer) : lx.adv.symbols = lx.symbols := rfl

theorem adv_config (lx : Lexer) : lx.adv.config = lx.config := rfl

theorem chomp_pos {pred : Int → Bool} {lx : Lexer} {g : Nat}
    (hg : 1 ≤ g) (hp : pred lx.char = true) :
    lx.cursor < (Lexer.chomp pred g lx).cursor := by
  cases g with
  | zero => omega
  | succ g =>
    rw [Lexer.chomp, hp]
    simp only [if_true]
    have := chomp_cursor_le pred g lx.adv
    rw [adv_cursor] at this
    omega

/-- A character that satisfies one of the scanner's classifier predicates
is a real character, so the cursor is on the tape. -/
theorem char_ne_eof_in_bounds {lx : Lexer} (h : lx.char ≠ -1) :
    lx.cursor < lx.symbols.length := by
  by_contra hge
  push_neg at hge
  exact h (by unfold Lexer.char Lexer.done; simp [hge])

theorem scanIdent_eq (lx : Lexer) :
    lx.scanIdentOrKeyword =
      (⟨lookupKeyword lx.config
          ((lx.symbols.take (Lexer.chomp isIdentChar lx.gas lx).cursor).drop lx.cursor),
        (lx.symbols.take (Lexer.chomp isIdentChar lx.gas lx).cursor).drop lx.cursor,
        lx.cursor⟩,
        Lexer.chomp isIdentChar lx.gas lx) := by
  simp only [Lexer.scanIdentOrKeyword, Lexer.collectBetween, chomp_symbols]

theorem scanNumeric_eq_digit {lx : Lexer} (h45 : (lx.char == 45) = false) :
    lx.scanNumeric =
      (⟨TokenNumber,
        (lx.symbols.take (Lexer.chomp isDecChar lx.gas lx).cursor).drop lx.cursor,
        lx.cursor⟩,
        Lexer.chomp isDecChar lx.gas lx) := by
  unfold Lexer.scanNumeric Lexer.collectBetween
  rw [h45]
  simp only [Bool.false_eq_true, if_false]
  rw [chomp_symbols]

theorem scanNumeric_eq_minus {lx : Lexer} (h45 : (lx.char == 45) = true) :
    lx.scanNumeric =
      (⟨TokenNumber,
        (lx.symbols.take (Lexer.chomp isDecChar lx.adv.gas lx.adv).cursor).drop lx.cursor,
        lx.cursor⟩,
        Lexer.chomp isDecChar lx.adv.gas lx.adv) := by
  unfold Lexer.scanNumeric Lexer.collectBetween
  rw [h45]
  simp only [if_true]
  rw [chomp_symbols, adv_symbols]

theorem scanHex_eq (lx : Lexer) :
    lx.scanHexadecimal =
      (⟨TokenHexNumber,
        (lx.symbols.take (Lexer.chomp isHexChar lx.adv.adv.gas lx.adv.adv).cursor).drop lx.cursor,
        lx.cursor⟩,
        Lexer.chomp isHexChar lx.adv.adv.gas lx.adv.adv) := by
  simp only [Lexer.scanHexadecimal, Lexer.collectBetween, chomp_symbols, adv_symbols]

/-- Cursor bounds for the chomp run of an identifier scan. -/
theorem scanIdent_cursor {lx : Lexer} (h : isIdentChar lx.char = true) :
    lx.cursor < (Lexer.chomp isIdentChar lx.gas lx).cursor ∧
    (Lexer.chomp isIdentChar lx.gas lx).cursor ≤ lx.symbols.length := by
  have hne : lx.char ≠ -1 := by
    intro hc; rw [hc, isIdentChar_neg] at h; exact absurd h (by simp)
  have hlt : lx.cursor < lx.symbols.length := char_ne_eof_in_bounds hne
  have hg : 1 ≤ lx.gas := by unfold Lexer.gas; omega
  exact ⟨chomp_pos hg h, chomp_cursor_ubound isIdentChar_neg _ _ (by omega)⟩

theorem scanDec_cursor {lx : Lexer} (h : isDecChar lx.char = true) :
    lx.cursor < (Lexer.chomp isDecChar lx.gas lx).cursor ∧
    (Lexer.chomp isDecChar lx.gas lx).cursor ≤ lx.symbols.length := by
  have hne : lx.char ≠ -1 := by
    intro hc; rw [hc, isDecChar_neg] at h; exact absurd h (by simp)
  have hlt : lx.cursor < lx.symbols.length := char_ne_eof_in_bounds hne
  have hg : 1 ≤ lx.gas := by unfold Lexer.gas; omega
  exact ⟨chomp_pos hg h, chomp_cursor_ubound isDecChar_neg _ _ (by omega)⟩

theorem scanDec_cursor_minus {lx : Lexer} (hin : lx.cursor + 1 ≤ lx.symbols.length) :
    lx.cursor < (Lexer.chomp isDecChar lx.adv.gas lx.adv).cursor ∧
    (Lexer.chomp isDecChar lx.adv.gas lx.adv).cursor ≤ lx.symbols.length := by
  constructor
  · have := chomp_cursor_le isDecChar lx.adv.gas lx.adv
    rw [adv_cursor] at this
    omega
  · have := chomp_cursor_ubound isDecChar_neg lx.adv.gas lx.adv
      (by rw [adv_cursor, adv_symbols]; omega)
    rwa [adv_symbols] at this

theorem scanHex_cursor {lx : Lexer} (hin : lx.cursor + 2 ≤ lx.symbols.length) :
    lx.cursor < (Lexer.chomp isHexChar lx.adv.adv.gas lx.adv.adv).cursor ∧
    (Lexer.chomp isHexChar lx.adv.adv.gas lx.adv.adv).cursor ≤ lx.symbols.length := by
  constructor
  · have := chomp_cursor_le isHexChar lx.adv.adv.gas lx.adv.adv
    rw [adv_cursor, adv_cursor] at this
    omega
  · have := chomp_cursor_ubound isHexChar_neg lx.adv.adv.gas lx.adv.adv
      (by rw [adv_cursor, adv_cursor, adv_symbols, adv_symbols]; omega)
    rwa [adv_symbols, adv_symbols] at this

theorem scanStr_preserves (g : Nat) (start : Nat) (lx : Lexer) :
    (Lexer.scanStrGas start g lx).2.symbols = lx.symbols ∧
    (Lexer.scanStrGas start g lx).2.config = lx.config := by
  induction g generalizing lx with
  | zero => exact ⟨rfl, rfl⟩
  | succ g ih =>
    rw [Lexer.scanStrGas]
    split
    · exact ⟨rfl, rfl⟩
    · split
      · exact ⟨rfl, rfl⟩
      · exact ih lx.adv

theorem scanStr_cursor (g : Nat) (start : Nat) (lx : Lexer)
    (hgas : lx.symbols.length ≤ lx.cursor + g) (hlt : lx.cursor < lx.symbols.length) :
    lx.cursor ≤ (Lexer.scanStrGas start g lx).2.cursor := by
  induction g generalizing lx with
  | zero => omega
  | succ g ih =>
    rw [Lexer.scanStrGas]
    split
    · show lx.cursor ≤ lx.adv.cursor
      rw [adv_cursor]
      omega
    · split
      · show lx.cursor ≤ lx.adv.cursor - 1
        rw [adv_cursor]
        omega
      · rename_i h34 heof
        have hne : lx.adv.char ≠ -1 := by simpa using heof
        have hlt' : lx.adv.cursor < lx.symbols.length := by
          have := char_ne_eof_in_bounds hne
          rwa [adv_symbols] at this
        have := ih lx.adv (by rw [adv_cursor, adv_symbols]; omega) (by rwa [adv_symbols])
        rw [adv_cursor] at this
        omega

/-! ## The string scan, characterized -/

theorem nonneg_getD {symbols : List Int} (hn : Nonneg symbols) {k : Nat}
    (hk : k < symbols.length) : 0 ≤ symbols.getD k 0 := by
  rw [List.getD_eq_getElem symbols 0 hk]
  exact hn _ (List.getElem_mem hk)

theorem char_eq_getD {lx : Lexer} (h : lx.cursor < lx.symbols.length) :
    lx.char = lx.symbols.getD lx.cursor 0 := by
  unfold Lexer.char Lexer.done
  simp [show ¬(lx.symbols.length ≤ lx.cursor) by omega]

theorem char_atEnd {lx : Lexer} (h : lx.symbols.length ≤ lx.cursor) :
    lx.char = -1 := by
  unfold Lexer.char Lexer.done
  simp [h]

theorem firstQuoteIdx_some : ∀ {l : List Int} {j : Nat}, firstQuoteIdx l = some j →
    j < l.length ∧ l.getD j 0 = 34 ∧ ∀ k, k < j → l.getD k 0 ≠ 34 := by
  intro l
  induction l with
  | nil => intro j h; simp [firstQuoteIdx] at h
  | cons c r ih =>
    intro j h
    rw [firstQuoteIdx] at h
    by_cases hc : c = 34
    · rw [if_pos hc] at h
      obtain rfl : j = 0 := by simpa using h.symm
      exact ⟨by simp, by simpa using hc, by omega⟩
    · rw [if_neg hc] at h
      match hfq : firstQuoteIdx r with
      | none => rw [hfq] at h; simp at h
      | some j' =>
        rw [hfq] at h
        simp at h
        obtain ⟨hj1, hj2, hj3⟩ := ih hfq
        subst h
        refine ⟨by simp; omega, by simpa using hj2, ?_⟩
        intro k hk
        match k with
        | 0 => simpa using hc
        | k' + 1 =>
          rw [List.getD_cons_succ]
          exact hj3 k' (by omega)

theorem firstQuoteIdx_none : ∀ {l : List Int}, firstQuoteIdx l = none →
    ∀ k, k < l.length → l.getD k 0 ≠ 34 := by
  intro l
  induction l with
  | nil => intro _ k hk; simp at hk
  | cons c r ih =>
    intro h k hk
    rw [firstQuoteIdx] at h
    by_cases hc : c = 34
    · rw [if_pos hc] at h; simp at h
    · rw [if_neg hc] at h
      match k with
      | 0 => simpa using hc
      | k' + 1 =>
        rw [List.getD_cons_succ]
        match hfq : firstQuoteIdx r with
        | some j' => rw [hfq] at h; simp at h
        | none => exact ih hfq k' (by simpa using hk)

theorem getD_drop (l : List Int) (i k : Nat) :
    (l.drop i).getD k 0 = l.getD (i + k) 0 := by
  simp [List.getD_eq_getElem?_getD, List.getElem?_drop]

theorem findQuoteFrom_some {symbols : List Int} {i q : Nat}
    (h : findQuoteFrom symbols i = some q) :
    i ≤ q ∧ q < symbols.length ∧ symbols.getD q 0 = 34 ∧
      ∀ k, i ≤ k → k < q → symbols.getD k 0 ≠ 34 := by
  unfold findQuoteFrom at h
  match hfq : firstQuoteIdx (symbols.drop i) with
  | none => rw [hfq] at h; simp at h
  | some j =>
    rw [hfq] at h
    simp at h
    obtain ⟨hj1, hj2, hj3⟩ := firstQuoteIdx_some hfq
    rw [List.length_drop] at hj1
    rw [getD_drop] at hj2
    subst h
    refine ⟨by omega, by omega, by rw [Nat.add_comm j i]; exact hj2, ?_⟩
    intro k hk1 hk2
    have := hj3 (k - i) (by omega)
    rw [getD_drop] at this
    rwa [show i + (k - i) = k by omega] at this

theorem findQuoteFrom_none {symbols : List Int} {i : Nat}
    (h : findQuoteFrom symbols i = none) :
    ∀ k, i ≤ k → k < symbols.length → symbols.getD k 0 ≠ 34 := by
  unfold findQuoteFrom at h
  match hfq : firstQuoteIdx (symbols.drop i) with
  | some j => rw [hfq] at h; simp at h
  | none =>
    intro k hk1 hk2
    have := firstQuoteIdx_none hfq (k - i) (by rw [List.length_drop]; omega)
    rw [getD_drop] at this
    rwa [show i + (k - i) = k by omega] at this

theorem scanStr_found : ∀ (g : Nat) (lx : Lexer) (start q : Nat),
    Nonneg lx.symbols → lx.cursor < q → q < lx.symbols.length →
    lx.symbols.getD q 0 = 34 →
    (∀ k, lx.cursor < k → k < q → lx.symbols.getD k 0 ≠ 34) →
    q ≤ lx.cursor + g →
    Lexer.scanStrGas start g lx =
      (⟨TokenString, (lx.symbols.take (q + 1)).drop start, start⟩,
        ⟨q, lx.symbols, lx.config⟩) := by
  intro g
  induction g with
  | zero => intro lx start q _ h1 _ _ _ h5; omega
  | succ g ih =>
    intro lx start q hn h1 h2 h3 h4 h5
    rw [Lexer.scanStrGas]
    by_cases hq : lx.cursor + 1 = q
    · have hchar : lx.adv.char = 34 := by
        rw [char_eq_getD (by rw [adv_cursor, adv_symbols]; omega), adv_cursor,
          adv_symbols, hq, h3]
      rw [if_pos (by rw [hchar]; rfl)]
      have hc : lx.adv.cursor = q := by rw [adv_cursor]; omega
      have hadv : lx.adv = (⟨q, lx.symbols, lx.config⟩ : Lexer) := by
        unfold Lexer.adv
        rw [hq]
      unfold Lexer.collectBetween
      rw [adv_symbols, hc, hadv]
    · have hchar : lx.adv.char = lx.symbols.getD (lx.cursor + 1) 0 := by
        rw [char_eq_getD (by rw [adv_cursor, adv_symbols]; omega), adv_cursor, adv_symbols]
      have hne34 : lx.adv.char ≠ 34 := by
        rw [hchar]; exact h4 _ (by omega) (by omega)
      have hge0 : (0:Int) ≤ lx.adv.char := by
        rw [hchar]; exact nonneg_getD hn (by omega)
      rw [if_neg (by simpa using hne34), if_neg (by simp; omega)]
      have := ih lx.adv start q (by rwa [adv_symbols]) (by rw [adv_cursor]; omega)
        (by rwa [adv_symbols]) (by rwa [adv_symbols])
        (by rw [adv_cursor, adv_symbols]; intro k hk1 hk2; exact h4 k (by omega) hk2)
        (by rw [adv_cursor]; omega)
      rw [this, adv_symbols]
      rfl

theorem scanStr_notFound : ∀ (g : Nat) (lx : Lexer) (start : Nat),
    Nonneg lx.symbols → lx.cursor < lx.symbols.length →
    (∀ k, lx.cursor < k → k < lx.symbols.length → lx.symbols.getD k 0 ≠ 34) →
    lx.symbols.length ≤ lx.cursor + g →
    Lexer.scanStrGas start g lx =
      (⟨TokenMalformed, lx.symbols.drop start, start⟩,
        ⟨lx.symbols.length - 1, lx.symbols, lx.config⟩) := by
  intro g
  induction g with
  | zero => intro lx start _ h1 _ h3; omega
  | succ g ih =>
    intro lx start hn h1 h2 h3
    rw [Lexer.scanStrGas]
    by_cases hq : lx.cursor + 1 = lx.symbols.length
    · have hchar : lx.adv.char = -1 :=
        char_atEnd (by rw [adv_cursor, adv_symbols]; omega)
      rw [if_neg (by rw [hchar]; decide), if_pos (by rw [hchar]; rfl)]
      unfold Lexer.collectBetween
      rw [adv_symbols, adv_cursor]
      rw [show lx.cursor + 1 = lx.symbols.length from hq]
      rw [List.take_length]
      rfl
    · have hlt : lx.cursor + 1 < lx.symbols.length := by omega
      have hchar : lx.adv.char = lx.symbols.getD (lx.cursor + 1) 0 := by
        rw [char_eq_getD (by rw [adv_cursor, adv_symbols]; omega), adv_cursor, adv_symbols]
      have hne34 : lx.adv.char ≠ 34 := by
        rw [hchar]; exact h2 _ (by omega) (by omega)
      have hge0 : (0:Int) ≤ lx.adv.char := by
        rw [hchar]; exact nonneg_getD hn (by omega)
      rw [if_neg (by simpa using hne34), if_neg (by simp; omega)]
      have := ih lx.adv start (by rwa [adv_symbols])
        (by rw [adv_cursor, adv_symbols]; omega)
        (by rw [adv_cursor, adv_symbols]; intro k hk1 hk2; exact h2 k (by omega) hk2)
        (by rw [adv_cursor, adv_symbols]; omega)
      rw [this, adv_symbols]
      rfl

/-! ## Shape facts about `Lexer.next` -/

theorem some_pair_inj {a b : Token} {c d : Lexer}
    (h : (some (a, c) : Option (Token × Lexer)) = some (b, d)) : b = a ∧ d = c :=
  ⟨(congrArg Prod.fst (Option.some.inj h)).symm,
    (congrArg Prod.snd (Option.some.inj h)).symm⟩

theorem peek_some_bounds {lx : Lexer} {p : Int} (hne : lx.char ≠ -1)
    (h : lx.peek = some p) : lx.cursor + 1 < lx.symbols.length := by
  have hlt := char_ne_eof_in_bounds hne
  unfold Lexer.peek at h
  rw [if_neg (by unfold Lexer.done; simp; omega)] at h
  by_cases hin : lx.cursor + 1 < lx.symbols.length
  · exact hin
  · rw [if_neg hin] at h
    exact absurd h (by simp)

theorem nextCore_progress {lx : Lexer} {t : Token} {lx' : Lexer}
    (h : lx.nextCore = some (t, lx')) :
    lx'.symbols = lx.symbols ∧ lx'.config = lx.config ∧ lx.cursor < lx'.cursor := by
  rw [Lexer.nextCore] at h
  by_cases h1 : (lx.char == -1) = true
  · rw [if_pos h1] at h
    obtain ⟨ht, hl⟩ := some_pair_inj h
    subst hl
    exact ⟨rfl, rfl, by rw [adv_cursor]; omega⟩
  rw [if_neg (by simpa using h1)] at h
  have hne : lx.char ≠ -1 := by simpa using h1
  have hlt := char_ne_eof_in_bounds hne
  by_cases h2 : (lx.char == 34) = true
  · rw [if_pos h2] at h
    obtain ⟨ht, hl⟩ := some_pair_inj h
    subst hl
    unfold Lexer.scanString
    have hpres := scanStr_preserves lx.gas lx.cursor lx
    have hcur := scanStr_cursor lx.gas lx.cursor lx (by unfold Lexer.gas; omega) hlt
    rw [adv_symbols, adv_config, adv_cursor]
    exact ⟨hpres.1, hpres.2, by omega⟩
  rw [if_neg (by simpa using h2)] at h
  by_cases h3 : (lx.char == 48) = true
  · rw [if_pos h3] at h
    have hc48 : lx.char = 48 := by simpa using h3
    cases hpk : lx.peek with
    | none => simp only [hpk] at h; exact absurd h (by simp)
    | some p =>
      simp only [hpk] at h
      have hin := peek_some_bounds hne hpk
      by_cases h4 : (p == 120) = true
      · rw [if_pos h4, scanHex_eq] at h
        obtain ⟨ht, hl⟩ := some_pair_inj h
        obtain ⟨hc1, hc2⟩ := @scanHex_cursor lx (by omega)
        subst hl
        exact ⟨(chomp_symbols _ _ _).trans ((adv_symbols _).trans (adv_symbols _)),
          (chomp_config _ _ _).trans ((adv_config _).trans (adv_config _)), hc1⟩
      · rw [if_neg h4, scanNumeric_eq_digit (by rw [hc48]; decide)] at h
        obtain ⟨ht, hl⟩ := some_pair_inj h
        obtain ⟨hc1, hc2⟩ := @scanDec_cursor lx (by rw [hc48]; decide)
        subst hl
        exact ⟨chomp_symbols _ _ _, chomp_config _ _ _, hc1⟩
  rw [if_neg (by simpa using h3)] at h
  by_cases h5 : isDigit lx.char = true
  · have hd : isDecChar lx.char = true := h5
    have h45 : (lx.char == 45) = false := by
      have : lx.char ≠ 45 := by
        unfold isDigit at h5
        simp at h5
        omega
      simpa using this
    rw [if_pos h5, scanNumeric_eq_digit h45] at h
    obtain ⟨ht, hl⟩ := some_pair_inj h
    obtain ⟨hc1, hc2⟩ := scanDec_cursor hd
    subst hl
    exact ⟨chomp_symbols _ _ _, chomp_config _ _ _, hc1⟩
  rw [if_neg h5] at h
  by_cases h6 : isLetter lx.char = true
  · rw [if_pos h6, scanIdent_eq] at h
    obtain ⟨ht, hl⟩ := some_pair_inj h
    obtain ⟨hc1, hc2⟩ := @scanIdent_cursor lx (by unfold isIdentChar; rw [h6]; rfl)
    subst hl
    exact ⟨chomp_symbols _ _ _, chomp_config _ _ _, hc1⟩
  rw [if_neg h6] at h
  by_cases h7 : (lx.char == 45) = true
  · rw [if_pos h7] at h
    cases hpk : lx.peek with
    | none => simp only [hpk] at h; exact absurd h (by simp)
    | some p =>
      simp only [hpk] at h
      have hin := peek_some_bounds hne hpk
      by_cases h8 : isDecChar p = true
      · rw [if_pos h8, scanNumeric_eq_minus h7] at h
        obtain ⟨ht, hl⟩ := some_pair_inj h
        obtain ⟨hc1, hc2⟩ := @scanDec_cursor_minus lx (by omega)
        subst hl
        exact ⟨(chomp_symbols _ _ _).trans (adv_symbols _),
          (chomp_config _ _ _).trans (adv_config _), hc1⟩
      · rw [if_neg h8] at h
        obtain ⟨ht, hl⟩ := some_pair_inj h
        subst hl
        exact ⟨rfl, rfl, by rw [adv_cursor]; omega⟩
  rw [if_neg h7] at h
  obtain ⟨ht, hl⟩ := some_pair_inj h
  subst hl
  exact ⟨rfl, rfl, by rw [adv_cursor]; omega⟩

theorem postSpace_symbols (lx0 : Lexer) : lx0.postSpace.symbols = lx0.symbols := by
  unfold Lexer.postSpace
  split
  · exact consumeSpaces_symbols lx0
  · rfl

theorem postSpace_config (lx0 : Lexer) : lx0.postSpace.config = lx0.config := by
  unfold Lexer.postSpace
  split
  · exact consumeSpaces_config lx0
  · rfl

theorem postSpace_cursor_le (lx0 : Lexer) : lx0.cursor ≤ lx0.postSpace.cursor := by
  unfold Lexer.postSpace
  split
  · exact consumeSpaces_cursor_le lx0
  · exact le_refl _

/-- `lexer.next` preserves the tape and configuration and strictly advances
the cursor: every produced token, the End-of-input token included, moves
the scanner forward. -/
theorem next_progress {lx : Lexer} {t : Token} {lx' : Lexer}
    (h : lx.next = some (t, lx')) :
    lx'.symbols = lx.symbols ∧ lx'.config = lx.config ∧ lx.cursor < lx'.cursor := by
  rw [Lexer.next] at h
  obtain ⟨hs, hc, hcur⟩ := nextCore_progress h
  exact ⟨hs.trans (postSpace_symbols lx), hc.trans (postSpace_config lx),
    lt_of_le_of_lt (postSpace_cursor_le lx) hcur⟩

/-- Past the end of the tape, `lexer.next` produces the End-of-input token
at the current cursor and still advances the cursor by one. -/
theorem next_atEnd {lx : Lexer} (h : lx.symbols.length ≤ lx.cursor) :
    lx.next = some (EOFToken lx.cursor, lx.adv) := by
  have hch : lx.char = -1 := char_atEnd h
  have hps : lx.postSpace = lx := by
    unfold Lexer.postSpace
    split
    · exact consumeSpaces_nonspace (by rw [hch]; decide)
    · rfl
  rw [Lexer.next, hps, Lexer.nextCore, if_pos (by rw [hch]; rfl)]

/-! ## The consumption shape of one `next` step -/

/-- The string-scan loop, seen through the `advanceCursor` that `next`
performs afterwards: writing `c₁` for the final cursor (the loop's cursor
plus one), the produced literal is exactly `symbols[start:c₁]`, the kind is
String or Malformed, and `c₁` stays on the tape. -/
theorem scanStr_slice : ∀ (g : Nat) (lx : Lexer) (start : Nat),
    lx.symbols.length ≤ lx.cursor + g → lx.cursor < lx.symbols.length →
    start ≤ lx.cursor →
    (Lexer.scanStrGas start g lx).1.literal =
      (lx.symbols.take ((Lexer.scanStrGas start g lx).2.cursor + 1)).drop start ∧
    (Lexer.scanStrGas start g lx).1.position = start ∧
    ((Lexer.scanStrGas start g lx).1.kind = TokenString ∨
      (Lexer.scanStrGas start g lx).1.kind = TokenMalformed) ∧
    lx.cursor < (Lexer.scanStrGas start g lx).2.cursor + 1 ∧
    (Lexer.scanStrGas start g lx).2.cursor + 1 ≤ lx.symbols.length := by
  intro g
  induction g with
  | zero => intro lx start hgas hlt _; omega
  | succ g ih =>
    intro lx start hgas hlt hstart
    rw [Lexer.scanStrGas]
    by_cases h34 : (lx.adv.char == 34) = true
    · rw [if_pos h34]
      have hin : lx.adv.cursor < lx.symbols.length := by
        have : lx.adv.char ≠ -1 := by
          intro hx
          rw [hx] at h34
          exact absurd h34 (by decide)
        have := char_ne_eof_in_bounds this
        rwa [adv_symbols] at this
      dsimp only
      unfold Lexer.collectBetween
      refine ⟨by rw [adv_symbols], rfl, Or.inl rfl, ?_, ?_⟩
      · rw [adv_cursor]; omega
      · rw [adv_cursor] at hin ⊢; omega
    · rw [if_neg h34]
      by_cases heof : (lx.adv.char == -1) = true
      · rw [if_pos heof]
        dsimp only
        unfold Lexer.collectBetween
        refine ⟨?_, rfl, Or.inr rfl, ?_, ?_⟩
        · rw [adv_symbols, adv_cursor, show lx.cursor + 1 - 1 + 1 = lx.cursor + 1 by omega]
        · rw [adv_cursor]; omega
        · rw [adv_cursor]; omega
      · rw [if_neg heof]
        have hne : lx.adv.char ≠ -1 := by simpa using heof
        have hin : lx.adv.cursor < lx.symbols.length := by
          have := char_ne_eof_in_bounds hne
          rwa [adv_symbols] at this
        rw [adv_cursor] at hin
        have := ih lx.adv start (by rw [adv_cursor, adv_symbols]; omega)
          (by rw [adv_cursor, adv_symbols]; omega)
          (by rw [adv_cursor]; omega)
        rw [adv_symbols, adv_cursor] at this
        exact ⟨this.1, this.2.1, this.2.2.1, by omega, this.2.2.2.2⟩

/-- Each successful `nextCore` step is either the End-of-input step (cursor
past the tape is not required here; the character was the sentinel), or a
consuming step: the token's literal is exactly the slice of the tape
between the old and new cursors, its position is the old cursor, and its
kind comes from one of the scan routines. -/
theorem nextCore_consume {lx : Lexer} {t : Token} {lx' : Lexer}
    (h : lx.nextCore = some (t, lx')) :
    (lx.char = -1 ∧ t = EOFToken lx.cursor ∧ lx' = lx.adv) ∨
    (lx.char ≠ -1 ∧ lx'.symbols = lx.symbols ∧ lx'.config = lx.config ∧
     t.position = lx.cursor ∧ lx.cursor < lx'.cursor ∧
     lx'.cursor ≤ lx.symbols.length ∧
     t.literal = (lx.symbols.take lx'.cursor).drop lx.cursor ∧
     (t.kind = TokenString ∨ t.kind = TokenMalformed ∨ t.kind = TokenNumber ∨
      t.kind = TokenHexNumber ∨ t.kind = lookupKeyword lx.config t.literal ∨
      t.kind = lx.char)) := by
  rw [Lexer.nextCore] at h
  by_cases h1 : (lx.char == -1) = true
  · rw [if_pos h1] at h
    obtain ⟨ht, hl⟩ := some_pair_inj h
    exact Or.inl ⟨by simpa using h1, ht, hl⟩
  rw [if_neg (by simpa using h1)] at h
  have hne : lx.char ≠ -1 := by simpa using h1
  have hlt := char_ne_eof_in_bounds hne
  refine Or.inr ⟨hne, ?_⟩
  by_cases h2 : (lx.char == 34) = true
  · rw [if_pos h2] at h
    obtain ⟨ht, hl⟩ := some_pair_inj h
    subst hl
    unfold Lexer.scanString at ht ⊢
    have hsl := scanStr_slice lx.gas lx lx.cursor (by unfold Lexer.gas; omega) hlt (le_refl _)
    have hpres := scanStr_preserves lx.gas lx.cursor lx
    subst ht
    rw [adv_symbols, adv_config, adv_cursor]
    refine ⟨hpres.1, hpres.2, hsl.2.1, hsl.2.2.2.1, hsl.2.2.2.2, ?_, ?_⟩
    · rw [hsl.1]
    · rcases hsl.2.2.1 with hk | hk
      · exact Or.inl hk
      · exact Or.inr (Or.inl hk)
  rw [if_neg (by simpa using h2)] at h
  by_cases h3 : (lx.char == 48) = true
  · rw [if_pos h3] at h
    have hc48 : lx.char = 48 := by simpa using h3
    cases hpk : lx.peek with
    | none => simp only [hpk] at h; exact absurd h (by simp)
    | some p =>
      simp only [hpk] at h
      have hin := peek_some_bounds hne hpk
      by_cases h4 : (p == 120) = true
      · rw [if_pos h4, scanHex_eq] at h
        obtain ⟨ht, hl⟩ := some_pair_inj h
        obtain ⟨hc1, hc2⟩ := @scanHex_cursor lx (by omega)
        subst hl ht
        exact ⟨(chomp_symbols _ _ _).trans ((adv_symbols _).trans (adv_symbols _)),
          (chomp_config _ _ _).trans ((adv_config _).trans (adv_config _)),
          rfl, hc1, hc2, rfl, Or.inr (Or.inr (Or.inr (Or.inl rfl)))⟩
      · rw [if_neg h4, scanNumeric_eq_digit (by rw [hc48]; decide)] at h
        obtain ⟨ht, hl⟩ := some_pair_inj h
        obtain ⟨hc1, hc2⟩ := @scanDec_cursor lx (by rw [hc48]; decide)
        subst hl ht
        exact ⟨chomp_symbols _ _ _, chomp_config _ _ _, rfl, hc1, hc2, rfl,
          Or.inr (Or.inr (Or.inl rfl))⟩
  rw [if_neg (by simpa using h3)] at h
  by_cases h5 : isDigit lx.char = true
  · have hd : isDecChar lx.char = true := h5
    have h45 : (lx.char == 45) = false := by
      have : lx.char ≠ 45 := by
        unfold isDigit at h5
        simp at h5
        omega
      simpa using this
    rw [if_pos h5, scanNumeric_eq_digit h45] at h
    obtain ⟨ht, hl⟩ := some_pair_inj h
    obtain ⟨hc1, hc2⟩ := scanDec_cursor hd
    subst hl ht
    exact ⟨chomp_symbols _ _ _, chomp_config _ _ _, rfl, hc1, hc2, rfl,
      Or.inr (Or.inr (Or.inl rfl))⟩
  rw [if_neg h5] at h
  by_cases h6 : isLetter lx.char = true
  · rw [if_pos h6, scanIdent_eq] at h
    obtain ⟨ht, hl⟩ := some_pair_inj h
    obtain ⟨hc1, hc2⟩ := @scanIdent_cursor lx (by unfold isIdentChar; rw [h6]; rfl)
    subst hl ht
    exact ⟨chomp_symbols _ _ _, chomp_config _ _ _, rfl, hc1, hc2, rfl,
      Or.inr (Or.inr (Or.inr (Or.inr (Or.inl rfl))))⟩
  rw [if_neg h6] at h
  by_cases h7 : (lx.char == 45) = true
  · rw [if_pos h7] at h
    cases hpk : lx.peek with
    | none => simp only [hpk] at h; exact absurd h (by simp)
    | some p =>
      simp only [hpk] at h
      have hin := peek_some_bounds hne hpk
      by_cases h8 : isDecChar p = true
      · rw [if_pos h8, scanNumeric_eq_minus h7] at h
        obtain ⟨ht, hl⟩ := some_pair_inj h
        obtain ⟨hc1, hc2⟩ := @scanDec_cursor_minus lx (by omega)
        subst hl ht
        exact ⟨(chomp_symbols _ _ _).trans (adv_symbols _),
          (chomp_config _ _ _).trans (adv_config _), rfl, hc1, hc2, rfl,
          Or.inr (Or.inr (Or.inl rfl))⟩
      · rw [if_neg h8] at h
        obtain ⟨ht, hl⟩ := some_pair_inj h
        subst hl ht
        rw [adv_symbols, adv_config, adv_cursor]
        refine ⟨rfl, rfl, rfl, by omega, by omega, ?_, Or.inr (Or.inr (Or.inr (Or.inr (Or.inr rfl))))⟩
        rw [slice_singleton hlt, char_eq_getD hlt]
        rfl
  rw [if_neg h7] at h
  obtain ⟨ht, hl⟩ := some_pair_inj h
  subst hl ht
  rw [adv_symbols, adv_config, adv_cursor]
  refine ⟨rfl, rfl, rfl, by omega, by omega, ?_, Or.inr (Or.inr (Or.inr (Or.inr (Or.inr rfl))))⟩
  rw [slice_singleton hlt, char_eq_getD hlt]
  rfl

/-! ## The token stream -/

theorem postSpace_eatOff {lx : Lexer} (h : lx.config.eatSpaces = false) :
    lx.postSpace = lx := by
  unfold Lexer.postSpace
  rw [h]
  simp

/-- With a keyword table that respects the reserved-kind contract (no
entry maps to the End-of-input kind) and a genuine character tape, a token
of End-of-input kind is produced only by the End-of-input branch: the tape
was exhausted at the classifier. -/
theorem nextCore_eofKind {lx : Lexer} {t : Token} {lx' : Lexer}
    (hn : Nonneg lx.symbols)
    (hk : ∀ ident, lookupKeyword lx.config ident ≠ TokenEoF)
    (h : lx.nextCore = some (t, lx')) (hkind : t.kind = TokenEoF) :
    lx.symbols.length ≤ lx.cursor ∧ t = EOFToken lx.cursor ∧ lx' = lx.adv := by
  rcases nextCore_consume h with ⟨hch, ht, hl⟩ | ⟨hne, _, _, _, _, _, hlit, hkinds⟩
  · have hcur : lx.symbols.length ≤ lx.cursor := by
      by_contra hc
      push_neg at hc
      have := @char_eq_getD lx (by omega)
      rw [hch] at this
      have hge := @nonneg_getD _ hn lx.cursor (by omega)
      omega
    exact ⟨hcur, ht, hl⟩
  · exfalso
    rcases hkinds with hx | hx | hx | hx | hx | hx
    · rw [hkind] at hx; exact absurd hx.symm (by decide)
    · rw [hkind] at hx; exact absurd hx.symm (by decide)
    · rw [hkind] at hx; exact absurd hx.symm (by decide)
    · rw [hkind] at hx; exact absurd hx.symm (by decide)
    · rw [hkind] at hx
      exact hk _ hx.symm
    · rw [hkind] at hx
      have hge : 0 ≤ lx.char := by
        have hlt := char_ne_eof_in_bounds hne
        rw [char_eq_getD hlt]
        exact nonneg_getD hn (by omega)
      rw [show TokenEoF = (-1 : Int) from rfl] at hx
      omega

/-- The `next`-level form of `nextCore_eofKind`: the resulting cursor is
past the end of the tape and the End-of-input literal is empty. -/
theorem next_eofKind {lx : Lexer} {t : Token} {lx' : Lexer}
    (hn : Nonneg lx.symbols)
    (hk : ∀ ident, lookupKeyword lx.config ident ≠ TokenEoF)
    (h : lx.next = some (t, lx')) (hkind : t.kind = TokenEoF) :
    lx.symbols.length ≤ lx'.cursor ∧ t.literal = [] := by
  rw [Lexer.next] at h
  have hps := postSpace_symbols lx
  have hpc := postSpace_config lx
  obtain ⟨hcur, ht, hl⟩ := nextCore_eofKind (by rwa [hps]) (by rw [hpc]; exact hk) h hkind
  rw [hps] at hcur
  constructor
  · rw [hl, adv_cursor]
    omega
  · rw [ht]
    rfl

theorem tokensGas_mono : ∀ (g g' : Nat) (lx : Lexer) (ts : List Token),
    Lexer.tokensGas g lx = some ts → g ≤ g' → Lexer.tokensGas g' lx = some ts := by
  intro g
  induction g with
  | zero => intro g' lx ts h _; rw [Lexer.tokensGas] at h; exact absurd h (by simp)
  | succ g ih =>
    intro g' lx ts h hle
    match g' with
    | 0 => omega
    | g'' + 1 =>
      rw [Lexer.tokensGas] at h ⊢
      cases hnx : lx.next with
      | none => rw [hnx] at h; simp at h
      | some r =>
        obtain ⟨t, lx1⟩ := r
        rw [hnx] at h
        dsimp only at h
        dsimp only
        by_cases hk : (t.kind == -1) = true
        · rw [if_pos hk] at h ⊢
          exact h
        · rw [if_neg hk] at h ⊢
          cases hts : Lexer.tokensGas g lx1 with
          | none => rw [hts] at h; exact absurd h (by simp)
          | some ts1 =>
            rw [hts] at h
            rw [ih g'' lx1 ts1 hts (by omega)]
            exact h

/-- Unfolding one token from a stream. -/
theorem stream_unfold {lx : Lexer} {ts : List Token}
    (h : lx.stream = some ts) :
    ∃ t lx', lx.next = some (t, lx') ∧
      ((t.kind = TokenEoF ∧ ts = [t]) ∨
        (t.kind ≠ TokenEoF ∧ ∃ ts', ts = t :: ts' ∧ lx'.stream = some ts')) := by
  unfold Lexer.stream at h
  rw [Lexer.tokensGas] at h
  cases hnx : lx.next with
  | none => rw [hnx] at h; simp at h
  | some r =>
    obtain ⟨t, lx1⟩ := r
    rw [hnx] at h
    dsimp only at h
    refine ⟨t, lx1, rfl, ?_⟩
    by_cases hk : (t.kind == -1) = true
    · rw [if_pos hk] at h
      exact Or.inl ⟨by simpa [TokenEoF] using hk, by simpa using h.symm⟩
    · rw [if_neg hk] at h
      cases hts : Lexer.tokensGas lx.symbols.length lx1 with
      | none => rw [hts] at h; exact absurd h (by simp)
      | some ts1 =>
        rw [hts] at h
        refine Or.inr ⟨by simpa [TokenEoF] using hk, ts1, by simpa using h.symm, ?_⟩
        unfold Lexer.stream
        have hsym : lx1.symbols = lx.symbols := (next_progress hnx).1
        rw [hsym]
        exact tokensGas_mono _ _ _ _ hts (by omega)

/-- Past the end of the tape the stream is a single End-of-input token. -/
theorem stream_atEnd {lx : Lexer} (h : lx.symbols.length ≤ lx.cursor) :
    lx.stream = some [EOFToken lx.cursor] := by
  unfold Lexer.stream
  rw [Lexer.tokensGas, next_atEnd h]
  rfl

/-! ## The round-trip property of a whitespace-preserving scan -/

theorem concatLits_cons (t : Token) (ts : List Token) :
    concatLits (t :: ts) = t.literal ++ concatLits ts := rfl

/-- Concatenating the literals of the tokens scanned from any position of
the tape (whitespace elision off, reserved kinds respected) reproduces the
rest of the tape. -/
theorem tokensGas_concat : ∀ (g : Nat) (lx : Lexer) (ts : List Token),
    Nonneg lx.symbols → lx.config.eatSpaces = false →
    (∀ ident, lookupKeyword lx.config ident ≠ TokenEoF) →
    Lexer.tokensGas g lx = some ts →
    concatLits ts = lx.symbols.drop lx.cursor := by
  intro g
  induction g with
  | zero => intro lx ts _ _ _ h; rw [Lexer.tokensGas] at h; exact absurd h (by simp)
  | succ g ih =>
    intro lx ts hn hs hk h
    rw [Lexer.tokensGas] at h
    cases hnx : lx.next with
    | none => rw [hnx] at h; simp at h
    | some r =>
      obtain ⟨t, lx1⟩ := r
      rw [hnx] at h
      dsimp only at h
      have hnc : lx.nextCore = some (t, lx1) := by
        rw [Lexer.next, postSpace_eatOff hs] at hnx
        exact hnx
      by_cases hkd : (t.kind == -1) = true
      · rw [if_pos hkd] at h
        obtain rfl : ts = [t] := by simpa using h.symm
        obtain ⟨hcur, ht, _⟩ := nextCore_eofKind hn hk hnc (by simpa [TokenEoF] using hkd)
        rw [List.drop_eq_nil_of_le hcur, ht]
        rfl
      · rw [if_neg hkd] at h
        cases hts : Lexer.tokensGas g lx1 with
        | none => rw [hts] at h; simp at h
        | some ts1 =>
          rw [hts] at h
          obtain rfl : ts = t :: ts1 := by simpa using h.symm
          rcases nextCore_consume hnc with ⟨hch, ht, hl⟩ | ⟨_, hsym, hcfg, _, hlt, hle, hlit, _⟩
          · exact absurd (by rw [ht]; rfl : (t.kind == -1) = true) hkd
          · have ih1 := ih lx1 ts1 (by rwa [hsym]) (by rw [hcfg]; exact hs)
              (by rw [hcfg]; exact hk) hts
            rw [concatLits_cons, ih1, hsym, hlit]
            exact slice_glue (le_of_lt hlt)

/-! ## Parser-level progress and the termination measure -/

theorem advance_shape {p p' : ParserS} (h : p.advance = some p') :
    ∃ t, p.scanner.next = some (t, p'.scanner) ∧ p'.curr = p.next ∧ p'.next = t := by
  unfold ParserS.advance at h
  cases hnx : p.scanner.next with
  | none => rw [hnx] at h; simp at h
  | some r =>
    obtain ⟨t, lx1⟩ := r
    rw [hnx] at h
    dsimp only at h
    obtain rfl : p' = ⟨lx1, p.next, t⟩ := by simpa using h.symm
    exact ⟨t, rfl, rfl, rfl⟩

theorem advance_symbols {p p' : ParserS} (h : p.advance = some p') :
    p'.scanner.symbols = p.scanner.symbols ∧ p'.scanner.config = p.scanner.config := by
  obtain ⟨t, hnx, _, _⟩ := advance_shape h
  have := next_progress hnx
  exact ⟨this.1, this.2.1⟩

/-- Drawing a token while the current one is not End-of-input strictly
decreases the loop measure. -/
theorem advance_measure {p p' : ParserS} (h : p.advance = some p')
    (hcurr : p.curr.kind ≠ -1) : pMeasure p' < pMeasure p := by
  obtain ⟨t, hnx, hc, hn⟩ := advance_shape h
  obtain ⟨hsym, _, hcur⟩ := next_progress hnx
  unfold pMeasure
  rw [hc, hn, hsym, if_neg hcurr]
  have hnext : (if p.next.kind = -1 then 0 else 1) ≤ 1 := by split <;> omega
  by_cases hend : p.scanner.symbols.length ≤ p.scanner.cursor
  · have hpair : (t, p'.scanner) = (EOFToken p.scanner.cursor, p.scanner.adv) :=
      Option.some.inj (hnx.symm.trans (next_atEnd hend))
    have ht1 : t = EOFToken p.scanner.cursor := congrArg Prod.fst hpair
    have hsc : p'.scanner = p.scanner.adv := congrArg Prod.snd hpair
    have htk : (if t.kind = -1 then 0 else 1 : Nat) = 0 := by
      rw [ht1]
      simp [EOFToken, TokenEoF]
    rw [htk, hsc, adv_cursor]
    omega
  · push_neg at hend
    have ht1 : (if t.kind = -1 then 0 else 1) ≤ 1 := by split <;> omega
    omega

theorem splitGas_noFuelOut : ∀ (g : Nat) (delim : Int) (splits : List (List Int))
    (acc : List Int) (p : ParserS), delim ≠ -1 → pMeasure p < g →
    ParserS.splitGas delim g splits acc p ≠ .fuelOut := by
  intro g
  induction g with
  | zero => intro delim splits acc p _ hm; omega
  | succ g ih =>
    intro delim splits acc p hd hm
    rw [ParserS.splitGas]
    by_cases h1 : (p.curr.kind == delim) = true
    · rw [if_pos h1]
      cases hadv : p.advance with
      | none => intro hx; exact SplitRes.noConfusion hx
      | some p' =>
        dsimp only
        have hcurr : p.curr.kind ≠ -1 := by
          rw [show p.curr.kind = delim by simpa using h1]
          exact hd
        exact ih delim (splits ++ [acc]) [] p' hd
          (by have := advance_measure hadv hcurr; omega)
    · rw [if_neg h1]
      by_cases h2 : (p.curr.kind == -1) = true
      · rw [if_pos h2]
        intro hx
        exact SplitRes.noConfusion hx
      · rw [if_neg h2]
        cases hadv : p.advance with
        | none => intro hx; exact SplitRes.noConfusion hx
        | some p' =>
          dsimp only
          exact ih delim splits (acc ++ p.curr.literal) p' hd
            (by have := advance_measure hadv (by simpa using h2); omega)

theorem unwrapGas_noFuelOut : ∀ (g : Nat) (startK stopK : Int) (startPos : Nat)
    (nesting : Int) (p : ParserS), 0 ≤ startK → 0 ≤ stopK → pMeasure p < g →
    ParserS.unwrapGas startK stopK startPos g nesting p ≠ .fuelOut := by
  intro g
  induction g with
  | zero => intro _ _ _ _ p _ _ hm; omega
  | succ g ih =>
    intro startK stopK startPos nesting p hs1 hs2 hm
    rw [ParserS.unwrapGas]
    by_cases h1 : (p.curr.kind == startK) = true
    · rw [if_pos h1]
      by_cases hz : (nesting + 1 == 0) = true
      · rw [if_pos hz]
        intro hx
        exact UnwrapRes.noConfusion hx
      · rw [if_neg hz]
        cases hadv : p.advance with
        | none => intro hx; exact UnwrapRes.noConfusion hx
        | some p' =>
          dsimp only
          have hcurr : p.curr.kind ≠ -1 := by
            rw [show p.curr.kind = startK by simpa using h1]
            omega
          exact ih startK stopK startPos (nesting + 1) p' hs1 hs2
            (by have := advance_measure hadv hcurr; omega)
    · rw [if_neg h1]
      by_cases h2 : (p.curr.kind == stopK) = true
      · rw [if_pos h2]
        by_cases hz : (nesting - 1 == 0) = true
        · rw [if_pos hz]
          intro hx
          exact UnwrapRes.noConfusion hx
        · rw [if_neg hz]
          cases hadv : p.advance with
          | none => intro hx; exact UnwrapRes.noConfusion hx
          | some p' =>
            dsimp only
            have hcurr : p.curr.kind ≠ -1 := by
              rw [show p.curr.kind = stopK by simpa using h2]
              omega
            exact ih startK stopK startPos (nesting - 1) p' hs1 hs2
              (by have := advance_measure hadv hcurr; omega)
      · rw [if_neg h2]
        by_cases h3 : (p.curr.kind == -1) = true
        · rw [if_pos h3]
          intro hx
          exact UnwrapRes.noConfusion hx
        · rw [if_neg h3]
          by_cases hz : (nesting == 0) = true
          · rw [if_pos hz]
            intro hx
            exact UnwrapRes.noConfusion hx
          · rw [if_neg hz]
            cases hadv : p.advance with
            | none => intro hx; exact UnwrapRes.noConfusion hx
            | some p' =>
              dsimp only
              exact ih startK stopK startPos nesting p' hs1 hs2
                (by have := advance_measure hadv (by simpa using h3); omega)

/-- The measure is bounded by the tape length plus two. -/
theorem pMeasure_bound (p : ParserS) : pMeasure p ≤ p.scanner.symbols.length + 2 := by
  unfold pMeasure
  have h1 : (if p.curr.kind = -1 then 0 else 1) ≤ 1 := by split <;> omega
  have h2 : (if p.next.kind = -1 then 0 else 1) ≤ 1 := by split <;> omega
  omega

/-! ## Stream-tracked parser advances -/

/-- When the scanner's remaining stream is known (no fault ahead), an
advance succeeds and the stream account moves one token forward: either
the drawn token was the head of the stream, or the stream was already at
its final End-of-input token and the freshly drawn token is again of
End-of-input kind. -/
theorem advance_with_stream {p : ParserS} {ts : List Token}
    (hn : Nonneg p.scanner.symbols)
    (hk : ∀ ident, lookupKeyword p.scanner.config ident ≠ TokenEoF)
    (hst : p.scanner.stream = some ts) :
    ∃ p', p.advance = some p' ∧ p'.curr = p.next ∧
      p'.scanner.symbols = p.scanner.symbols ∧
      p'.scanner.config = p.scanner.config ∧
      ((∃ ts', ts = p'.next :: ts' ∧ p'.scanner.stream = some ts') ∨
        (ts = [p'.next] ∧ p'.next.kind = -1 ∧
          ∃ e, p'.scanner.stream = some [e] ∧ e.kind = -1)) := by
  obtain ⟨t, lx1, hnx, hcase⟩ := stream_unfold hst
  have hadv : p.advance = some ⟨lx1, p.next, t⟩ := by
    unfold ParserS.advance
    rw [hnx]
  have hprog := next_progress hnx
  refine ⟨⟨lx1, p.next, t⟩, hadv, rfl, hprog.1, hprog.2.1, ?_⟩
  rcases hcase with ⟨hkind, hts⟩ | ⟨hkind, ts', hts, hst1⟩
  · refine Or.inr ⟨by rw [hts], by rw [show TokenEoF = (-1:Int) from rfl] at hkind; exact hkind, ?_⟩
    have hend := next_eofKind hn hk hnx hkind
    have : lx1.stream = some [EOFToken lx1.cursor] :=
      stream_atEnd (by rw [hprog.1]; exact hend.1)
    exact ⟨EOFToken lx1.cursor, this, rfl⟩
  · exact Or.inl ⟨ts', hts, hst1⟩

theorem countToEoF_cons (delim : Int) (t : Token) (ts : List Token) :
    countToEoF delim (t :: ts) =
      if t.kind = -1 then 0
      else (if t.kind = delim then 1 else 0) + countToEoF delim ts := rfl

/-- Everything after an End-of-input-kind token is invisible to the count. -/
theorem countToEoF_cut {y : Token} (hy : y.kind = -1) (delim : Int) (x : Token)
    (l l' : List Token) :
    countToEoF delim (x :: y :: l) = countToEoF delim (x :: y :: l') := by
  rw [countToEoF_cons, countToEoF_cons delim y l, countToEoF_cons, countToEoF_cons delim y l']
  rw [if_pos hy, if_pos hy]

/-- The counting refinement of the `Split` loop: with the remaining stream
known, the loop completes with `ok` and produces one more split than the
number of delimiter-kind tokens seen before End-of-input. -/
theorem splitGas_count : ∀ (g : Nat) (delim : Int) (p : ParserS) (ts : List Token)
    (splits : List (List Int)) (acc : List Int),
    delim ≠ -1 → Nonneg p.scanner.symbols →
    (∀ ident, lookupKeyword p.scanner.config ident ≠ TokenEoF) →
    p.scanner.stream = some ts → pMeasure p < g →
    ∃ splits2 p2, ParserS.splitGas delim g splits acc p = .ok splits2 p2 ∧
      splits2.length = splits.length + countToEoF delim (p.curr :: p.next :: ts) + 1 := by
  intro g
  induction g with
  | zero => intro _ _ _ _ _ _ _ _ _ hm; omega
  | succ g ih =>
    intro delim p ts splits acc hd hn hk hst hm
    obtain ⟨p', hadv, hcp, hsym, hcfg, hcase⟩ := advance_with_stream hn hk hst
    rw [ParserS.splitGas]
    by_cases h1 : (p.curr.kind == delim) = true
    · rw [if_pos h1, hadv]
      dsimp only
      have hcurr : p.curr.kind ≠ -1 := by
        rw [show p.curr.kind = delim by simpa using h1]
        exact hd
      have hmeas : pMeasure p' < g := by
        have := advance_measure hadv hcurr
        omega
      have hcount : countToEoF delim (p.curr :: p.next :: ts) =
          1 + countToEoF delim (p.next :: ts) := by
        rw [countToEoF_cons, if_neg hcurr, if_pos (by simpa using h1)]
      rcases hcase with ⟨ts', hts, hst1⟩ | ⟨hts, hke, e, hst1, hek⟩
      · obtain ⟨s2, p2, heq, hlen⟩ := ih delim p' ts' (splits ++ [acc]) []
          hd (by rwa [hsym]) (by rw [hcfg]; exact hk) hst1 hmeas
        refine ⟨s2, p2, heq, ?_⟩
        rw [hlen, hcount, hcp, hts]
        simp
        omega
      · obtain ⟨s2, p2, heq, hlen⟩ := ih delim p' [e] (splits ++ [acc]) []
          hd (by rwa [hsym]) (by rw [hcfg]; exact hk) hst1 hmeas
        refine ⟨s2, p2, heq, ?_⟩
        rw [hlen, hcount, hcp, hts]
        rw [countToEoF_cut hke delim p.next [] [e]]
        simp
        omega
    · rw [if_neg h1]
      by_cases h2 : (p.curr.kind == -1) = true
      · rw [if_pos h2]
        refine ⟨splits ++ [acc], p, rfl, ?_⟩
        rw [countToEoF_cons, if_pos (by simpa using h2)]
        simp
      · rw [if_neg h2, hadv]
        dsimp only
        have hcurr : p.curr.kind ≠ -1 := by simpa using h2
        have hmeas : pMeasure p' < g := by
          have := advance_measure hadv hcurr
          omega
        have hcount : countToEoF delim (p.curr :: p.next :: ts) =
            countToEoF delim (p.next :: ts) := by
          rw [countToEoF_cons, if_neg hcurr, if_neg (by simpa using h1)]
          omega
        rcases hcase with ⟨ts', hts, hst1⟩ | ⟨hts, hke, e, hst1, hek⟩
        · obtain ⟨s2, p2, heq, hlen⟩ := ih delim p' ts' splits (acc ++ p.curr.literal)
            hd (by rwa [hsym]) (by rw [hcfg]; exact hk) hst1 hmeas
          refine ⟨s2, p2, heq, ?_⟩
          rw [hlen, hcount, hcp, hts]
        · obtain ⟨s2, p2, heq, hlen⟩ := ih delim p' [e] splits (acc ++ p.curr.literal)
            hd (by rwa [hsym]) (by rw [hcfg]; exact hk) hst1 hmeas
          refine ⟨s2, p2, heq, ?_⟩
          rw [hlen, hcount, hcp, hts]
          rw [countToEoF_cut hke delim p.next [] [e]]

/-! ## The nesting refinement of the `Unwrap` loop -/

theorem nestResolve_cons (sk tk n : Int) (t : Token) (ts : List Token) :
    nestResolve sk tk n (t :: ts) =
      if t.kind = sk then nestResolve sk tk (n + 1) ts
      else if t.kind = tk then
        (if n - 1 = 0 then some t else nestResolve sk tk (n - 1) ts)
      else if t.kind = -1 then none
      else nestResolve sk tk n ts := rfl

/-- The resolving token is of the stop kind (and not of the start kind,
which is checked first). -/
theorem nestResolve_some_kind : ∀ (l : List Token) (sk tk n : Int) (ct : Token),
    nestResolve sk tk n l = some ct → ct.kind = tk ∧ ct.kind ≠ sk := by
  intro l
  induction l with
  | nil => intro sk tk n ct h; rw [nestResolve] at h; exact absurd h (by simp)
  | cons t ts ih =>
    intro sk tk n ct h
    rw [nestResolve_cons] at h
    by_cases h1 : t.kind = sk
    · rw [if_pos h1] at h
      exact ih sk tk (n + 1) ct h
    · rw [if_neg h1] at h
      by_cases h2 : t.kind = tk
      · rw [if_pos h2] at h
        by_cases h3 : n - 1 = 0
        · rw [if_pos h3] at h
          obtain rfl : ct = t := by simpa using h.symm
          exact ⟨h2, h1⟩
        · rw [if_neg h3] at h
          exact ih sk tk (n - 1) ct h
      · rw [if_neg h2] at h
        by_cases h3 : t.kind = -1
        · rw [if_pos h3] at h
          exact absurd h (by simp)
        · rw [if_neg h3] at h
          exact ih sk tk n ct h

/-- Everything after an End-of-input-kind token is invisible to nesting
resolution against character enclosures. -/
theorem nestResolve_cut {y : Token} (hy : y.kind = -1) {sk tk : Int}
    (hs1 : 0 ≤ sk) (hs2 : 0 ≤ tk) (n : Int) (x : Token) (l l' : List Token) :
    nestResolve sk tk n (x :: y :: l) = nestResolve sk tk n (x :: y :: l') := by
  have hstep : ∀ (m : Int) (r : List Token), nestResolve sk tk m (y :: r) = none := by
    intro m r
    rw [nestResolve_cons, if_neg (by omega), if_neg (by omega), if_pos hy]
  rw [nestResolve_cons sk tk n x (y :: l), nestResolve_cons sk tk n x (y :: l')]
  by_cases h1 : x.kind = sk
  · rw [if_pos h1, if_pos h1, hstep, hstep]
  · rw [if_neg h1, if_neg h1]
    by_cases h2 : x.kind = tk
    · rw [if_pos h2, if_pos h2]
      by_cases h3 : n - 1 = 0
      · rw [if_pos h3, if_pos h3]
      · rw [if_neg h3, if_neg h3, hstep, hstep]
    · rw [if_neg h2, if_neg h2]
      by_cases h3 : x.kind = -1
      · rw [if_pos h3, if_pos h3]
      · rw [if_neg h3, if_neg h3, hstep, hstep]

/-- The nesting refinement of the `Unwrap` loop.  With the remaining
stream known: if the nesting discipline resolves at a token `ct` before
any End-of-input token, the loop returns `ok` with exactly the slice of
the tape from the recorded start offset up to (excluding) `ct`'s position,
and the parser is left with `ct` as its current token; if instead
End-of-input is reached first, the loop fails with the missing-end
condition. -/
theorem unwrapGas_resolve : ∀ (g : Nat) (startK stopK : Int) (startPos : Nat)
    (n : Int) (p : ParserS) (ts : List Token),
    0 ≤ startK → 0 ≤ stopK → 1 ≤ n →
    Nonneg p.scanner.symbols →
    (∀ ident, lookupKeyword p.scanner.config ident ≠ TokenEoF) →
    p.scanner.stream = some ts → pMeasure p < g →
    (∀ ct, nestResolve startK stopK n (p.curr :: p.next :: ts) = some ct →
      ∃ p2, ParserS.unwrapGas startK stopK startPos g n p =
          .ok ((p.scanner.symbols.take ct.position).drop startPos) p2 ∧
        p2.curr = ct) ∧
    (nestResolve startK stopK n (p.curr :: p.next :: ts) = none →
      ∃ p2, ParserS.unwrapGas startK stopK startPos g n p = .err .missingEnd p2) := by
  intro g
  induction g with
  | zero => intro _ _ _ _ p _ _ _ _ _ _ _ hm; omega
  | succ g ih =>
    intro startK stopK startPos n p ts hs1 hs2 hn1 hnn hkw hst hm
    obtain ⟨p', hadv, hcp, hsym, hcfg, hcase⟩ := advance_with_stream hnn hkw hst
    have hcaseL : ∀ m : Int, (∃ ts2, p'.scanner.stream = some ts2 ∧
        nestResolve startK stopK m (p.next :: ts) =
          nestResolve startK stopK m (p'.curr :: p'.next :: ts2)) := by
      intro m
      rcases hcase with ⟨ts', hts, hst1⟩ | ⟨hts, hke, e, hst1, hek⟩
      · exact ⟨ts', hst1, by rw [hcp, hts]⟩
      · refine ⟨[e], hst1, ?_⟩
        rw [hcp, hts]
        exact nestResolve_cut hke hs1 hs2 m p.next [] [e]
    rw [ParserS.unwrapGas, nestResolve_cons]
    by_cases h1 : (p.curr.kind == startK) = true
    · rw [if_pos h1, if_pos (by simpa using h1), if_neg (by simp; omega), hadv]
      dsimp only
      have hcurr : p.curr.kind ≠ -1 := by
        rw [show p.curr.kind = startK by simpa using h1]
        omega
      have hmeas : pMeasure p' < g := by
        have := advance_measure hadv hcurr
        omega
      obtain ⟨ts2, hst2, hnr⟩ := hcaseL (n + 1)
      have ihp := ih startK stopK startPos (n + 1) p' ts2 hs1 hs2 (by omega)
        (by rwa [hsym]) (by rw [hcfg]; exact hkw) hst2 hmeas
      constructor
      · intro ct hct
        rw [hnr] at hct
        obtain ⟨p2, heq, hc2⟩ := ihp.1 ct hct
        rw [hsym] at heq
        exact ⟨p2, heq, hc2⟩
      · intro hct
        rw [hnr] at hct
        exact ihp.2 hct
    · rw [if_neg h1, if_neg (by simpa using h1)]
      by_cases h2 : (p.curr.kind == stopK) = true
      · rw [if_pos h2, if_pos (by simpa using h2)]
        by_cases h3 : (n - 1 == 0) = true
        · rw [if_pos h3, if_pos (by simpa using h3)]
          constructor
          · intro ct hct
            obtain rfl : ct = p.curr := by simpa using hct.symm
            exact ⟨p, rfl, rfl⟩
          · intro hct
            exact absurd hct (by simp)
        · rw [if_neg h3, if_neg (by simpa using h3), hadv]
          dsimp only
          have hcurr : p.curr.kind ≠ -1 := by
            rw [show p.curr.kind = stopK by simpa using h2]
            omega
          have hmeas : pMeasure p' < g := by
            have := advance_measure hadv hcurr
            omega
          have hn2 : 1 ≤ n - 1 := by
            have : ¬(n - 1 = 0) := by simpa using h3
            omega
          obtain ⟨ts2, hst2, hnr⟩ := hcaseL (n - 1)
          have ihp := ih startK stopK startPos (n - 1) p' ts2 hs1 hs2 hn2
            (by rwa [hsym]) (by rw [hcfg]; exact hkw) hst2 hmeas
          constructor
          · intro ct hct
            rw [hnr] at hct
            obtain ⟨p2, heq, hc2⟩ := ihp.1 ct hct
            rw [hsym] at heq
            exact ⟨p2, heq, hc2⟩
          · intro hct
            rw [hnr] at hct
            exact ihp.2 hct
      · rw [if_neg h2, if_neg (by simpa using h2)]
        by_cases h3 : (p.curr.kind == -1) = true
        · rw [if_pos h3, if_pos (by simpa using h3)]
          exact ⟨fun ct hct => absurd hct (by simp), fun _ => ⟨p, rfl⟩⟩
        · rw [if_neg h3, if_neg (by simpa using h3), if_neg (by simp; omega), hadv]
          dsimp only
          have hcurr : p.curr.kind ≠ -1 := by simpa using h3
          have hmeas : pMeasure p' < g := by
            have := advance_measure hadv hcurr
            omega
          obtain ⟨ts2, hst2, hnr⟩ := hcaseL n
          have ihp := ih startK stopK startPos n p' ts2 hs1 hs2 hn1
            (by rwa [hsym]) (by rw [hcfg]; exact hkw) hst2 hmeas
          constructor
          · intro ct hct
            rw [hnr] at hct
            obtain ⟨p2, heq, hc2⟩ := ihp.1 ct hct
            rw [hsym] at heq
            exact ⟨p2, heq, hc2⟩
          · intro hct
            rw [hnr] at hct
            exact ihp.2 hct

/-! ## The claims -/

/-- C1: the spec requires a single-character lookahead past the very end of
the input to stay in bounds and yield the End-of-input sentinel, so that
`next()` on an input ending in `0` or `-` returns a token.  The code's
`peek` checks only `done()` before reading `symbols[cursor+1]`, so with the
cursor on the last rune the read is out of range: `peek` faults (modelled
`none`), and `next()` on the one-character inputs `0` and `-` faults
instead of returning a token. -/
theorem claim1_peek_past_end_faults :
    Lexer.peek ⟨0, codes "0", ⟨false, none⟩⟩ = none ∧
    Lexer.next ⟨0, codes "0", ⟨false, none⟩⟩ = none ∧
    Lexer.next ⟨0, codes "-", ⟨false, none⟩⟩ = none := by
  decide

/-- Helper for the C2 counterexample: once the current and peek tokens are
of End-of-input kind over an empty tape, `Split` with the End-of-input
delimiter matches the delimiter case forever (it shadows the exit case),
so every gas budget runs out. -/
theorem splitEoF_diverges : ∀ (g : Nat) (splits : List (List Int)) (acc : List Int)
    (p : ParserS), p.scanner.symbols = [] → p.curr.kind = -1 → p.next.kind = -1 →
    ParserS.splitGas TokenEoF g splits acc p = .fuelOut := by
  intro g
  induction g with
  | zero => intro splits acc p _ _ _; rfl
  | succ g ih =>
    intro splits acc p hsym hc hn
    rw [ParserS.splitGas, if_pos (by rw [hc]; rfl)]
    have hadv : p.advance = some ⟨p.scanner.adv, p.next, EOFToken p.scanner.cursor⟩ := by
      unfold ParserS.advance
      rw [next_atEnd (by rw [hsym]; simp)]
    rw [hadv]
    dsimp only
    exact ih _ _ _ (by rw [adv_symbols]; exact hsym) hn rfl

/-- C2, counterexample: `Split` with the End-of-input kind as delimiter
does not terminate — on the empty input, every gas budget is exhausted,
because the delimiter case of the loop's switch shadows the End-of-input
exit case. -/
theorem claim2_counterexample : SplitDiverges [] ⟨false, none⟩ TokenEoF := by
  intro g acc splits p hp
  have hmk : mkParser [] (⟨false, none⟩ : ParseConfig) =
      some ⟨⟨2, [], ⟨false, none⟩⟩, ⟨-1, [], 0⟩, ⟨-1, [], 1⟩⟩ := by decide
  rw [hmk] at hp
  obtain rfl : p = ⟨⟨2, [], ⟨false, none⟩⟩, ⟨-1, [], 0⟩, ⟨-1, [], 1⟩⟩ :=
    (Option.some.inj hp).symm
  exact splitEoF_diverges g splits acc _ rfl rfl rfl

/-- C2, amended: from any parser state, `Split` completes within the gas
budget `symbols.length + 3` (a number of loop steps proportional to the
input length) for every delimiter kind other than End-of-input, and
`Unwrap` does so for every enclosure made of characters; a scanner fault
also stops the loop within that budget.  The End-of-input delimiter is
excluded: `claim2_counterexample` shows `Split(EoF)` never terminates. -/
theorem claim2_linear_termination :
    (∀ (p : ParserS) (delim : Int), delim ≠ TokenEoF →
      p.Split delim ≠ SplitRes.fuelOut) ∧
    (∀ (p : ParserS) (enc : Enclosure), 0 ≤ enc.start → 0 ≤ enc.stop →
      p.Unwrap enc ≠ UnwrapRes.fuelOut) := by
  constructor
  · intro p delim hd
    unfold ParserS.Split
    apply splitGas_noFuelOut
    · simpa [TokenEoF] using hd
    · have := pMeasure_bound p
      omega
  · intro p enc h1 h2
    unfold ParserS.Unwrap
    by_cases hc : (p.curr.kind == enc.start) = true
    · rw [if_pos hc]
      cases hadv : p.advance with
      | none => intro hx; exact UnwrapRes.noConfusion hx
      | some p1 =>
        dsimp only
        apply unwrapGas_noFuelOut _ _ _ _ _ _ h1 h2
        have hb := pMeasure_bound p1
        have hsym := (advance_symbols hadv).1
        rw [hsym] at hb
        omega
    · rw [if_neg hc]
      intro hx
      exact UnwrapRes.noConfusion hx

/-- C2, witness. -/
theorem claim2_witness :
    ((45 : Int) ≠ TokenEoF) ∧ ((0 : Int) ≤ EnclosureParens.start) ∧
    ((0 : Int) ≤ EnclosureParens.stop) ∧
    ParserS.Split ⟨⟨0, [], ⟨false, none⟩⟩, zeroToken, zeroToken⟩ 45 ≠ SplitRes.fuelOut ∧
    ParserS.Unwrap ⟨⟨0, [], ⟨false, none⟩⟩, zeroToken, zeroToken⟩ EnclosureParens ≠
      UnwrapRes.fuelOut :=
  ⟨by decide, by decide, by decide,
    claim2_linear_termination.1 _ 45 (by decide),
    claim2_linear_termination.2 _ EnclosureParens (by decide) (by decide)⟩

/-- C3: the spec says parser construction pre-seeds the keyword table with
`true`/`false` mapped to the Boolean kind before user options, and that the
`Keywords` option merges into that table.  `newParseConfig` does exactly
this (first three conjuncts: defaults, override on collision, coexistence),
but `NewParser` as written builds its config with `new(parseConfig)` and
never calls `newParseConfig`: a parser built by `NewParser` with no keyword
option scans `true` as an Identifier-kind token, not Boolean, and the
merging `Keywords` option applied through `NewParser` writes into a nil map
(a Go panic, modelled `none`). -/
theorem claim3_keyword_seeding :
    (newParseConfig []).map (fun c => lookupKeyword c (codes "true")) = some TokenBoolean ∧
    (newParseConfig []).map (fun c => lookupKeyword c (codes "false")) = some TokenBoolean ∧
    (newParseConfig [Keywords [(codes "true", -10), (codes "color", -11)]]).map
      (fun c => (lookupKeyword c (codes "true"), lookupKeyword c (codes "false"),
        lookupKeyword c (codes "color"))) = some (-10, TokenBoolean, -11) ∧
    (NewParser (codes "true") []).map (fun p => p.curr.kind) = some TokenIdent ∧
    TokenIdent ≠ TokenBoolean ∧
    Keywords [(codes "x", -10)] ⟨false, none⟩ = none := by
  decide

/-- C4: with whitespace elision off, concatenating every token literal in
production order reproduces the input — for every input on which the
scanner does not fault.  The first conjunct shows the universal claim as
stated is broken by the out-of-range lookahead: on input `0` the scan
faults and produces no token stream at all.  The second conjunct is the
round-trip property for every input whose scan completes, over any keyword
table respecting the reserved-kind contract. -/
theorem claim4_roundtrip :
    Lexer.next ⟨0, codes "0", ⟨false, none⟩⟩ = none ∧
    ∀ (symbols : List Int) (kws : Option (List (List Int × Int))) (ts : List Token),
      Nonneg symbols →
      (∀ ident, lookupKeyword ⟨false, kws⟩ ident ≠ TokenEoF) →
      Lexer.stream ⟨0, symbols, ⟨false, kws⟩⟩ = some ts →
      concatLits ts = symbols := by
  refine ⟨by decide, ?_⟩
  intro symbols kws ts hn hk hst
  have h := tokensGas_concat (symbols.length + 1) ⟨0, symbols, ⟨false, kws⟩⟩ ts hn rfl hk hst
  simpa using h

/-- C4, witness. -/
theorem claim4_witness :
    Nonneg (codes "ab -1") ∧
    Lexer.stream ⟨0, codes "ab -1", ⟨false, none⟩⟩ =
      some [⟨-2, [97, 98], 0⟩, ⟨32, [32], 2⟩, ⟨-3, [45, 49], 3⟩, ⟨-1, [], 5⟩] ∧
    concatLits [⟨-2, [97, 98], 0⟩, ⟨32, [32], 2⟩, ⟨-3, [45, 49], 3⟩, ⟨-1, [], 5⟩] =
      codes "ab -1" :=
  ⟨by decide, by decide,
    claim4_roundtrip.2 (codes "ab -1") none _ (by decide)
      (fun ident => (by decide : (TokenIdent : Int) ≠ TokenEoF)) (by decide)⟩

/-- C5: for every delimiter other than End-of-input, `Split` returns
exactly (number of delimiter-kind tokens before End-of-input) + 1 strings —
for every input on which the scanner does not fault.  The first conjunct
shows the claim as stated is broken by the out-of-range lookahead: on input
`a,0` (delimiter `,`), `Split` aborts in a scanner fault and returns no
result.  The second conjunct is the counting invariant whenever the
remaining stream exists. -/
theorem claim5_split_count :
    ((mkParser (codes "a,0") ⟨false, none⟩).map (fun p => p.Split 44) =
      some SplitRes.fault) ∧
    ∀ (p : ParserS) (delim : Int) (ts : List Token),
      delim ≠ TokenEoF → Nonneg p.scanner.symbols →
      (∀ ident, lookupKeyword p.scanner.config ident ≠ TokenEoF) →
      p.scanner.stream = some ts →
      (p.Split delim).splits?.map List.length =
        some (countToEoF delim (p.curr :: p.next :: ts) + 1) := by
  constructor
  · decide
  · intro p delim ts hd hn hk hst
    obtain ⟨s2, p2, heq, hlen⟩ := splitGas_count (p.scanner.symbols.length + 3) delim p ts [] []
      (by simpa [TokenEoF] using hd) hn hk hst (by have := pMeasure_bound p; omega)
    unfold ParserS.Split
    rw [heq]
    simp [SplitRes.splits?, hlen]

/-- C5, witness. -/
theorem claim5_witness :
    ((44 : Int) ≠ TokenEoF) ∧ Nonneg [97, 44, 98] ∧
    Lexer.stream ⟨2, [97, 44, 98], ⟨false, none⟩⟩ = some [⟨-2, [98], 2⟩, ⟨-1, [], 3⟩] ∧
    (ParserS.Split ⟨⟨2, [97, 44, 98], ⟨false, none⟩⟩, ⟨-2, [97], 0⟩, ⟨44, [44], 1⟩⟩
        44).splits?.map List.length =
      some (countToEoF 44
        (⟨-2, [97], 0⟩ :: ⟨44, [44], 1⟩ :: [⟨-2, [98], 2⟩, ⟨-1, [], 3⟩]) + 1) :=
  ⟨by decide, by decide, by decide,
    claim5_split_count.2 ⟨⟨2, [97, 44, 98], ⟨false, none⟩⟩, ⟨-2, [97], 0⟩, ⟨44, [44], 1⟩⟩
      44 [⟨-2, [98], 2⟩, ⟨-1, [], 3⟩] (by decide) (by decide)
      (fun ident => (by decide : (TokenIdent : Int) ≠ TokenEoF)) (by decide)⟩

/-- C6: when the current token is the enclosure's start character and the
nesting counter resolves to zero before End-of-input, `Unwrap` succeeds,
returns the slice of the original input from one past the opening
character's position up to (excluding) the matching closing character's
position, and leaves the closing character's token as the parser's current
token — for every input on which the scanner does not fault.  The first
conjunct shows the claim as stated is broken by the out-of-range lookahead:
on `(x)0` with parentheses, the nesting resolves at `)` but the parser's
lookahead pipeline draws a token from the trailing `0` and faults. -/
theorem claim6_unwrap_success :
    ((mkParser (codes "(x)0") ⟨false, none⟩).map (fun p => p.Unwrap EnclosureParens) =
      some UnwrapRes.fault) ∧
    ∀ (p : ParserS) (enc : Enclosure) (ts : List Token) (ct : Token),
      0 ≤ enc.start → 0 ≤ enc.stop → enc.start ≠ enc.stop →
      Nonneg p.scanner.symbols →
      (∀ ident, lookupKeyword p.scanner.config ident ≠ TokenEoF) →
      p.scanner.stream = some ts →
      p.curr.kind = enc.start →
      nestResolve enc.start enc.stop 1 (p.next :: ts) = some ct →
      (p.Unwrap enc).value? =
        some ((p.scanner.symbols.take ct.position).drop (p.curr.position + 1)) ∧
      (p.Unwrap enc).state?.map ParserS.curr = some ct ∧
      ct.kind = enc.stop := by
  constructor
  · decide
  · intro p enc ts ct h1 h2 hne hn hk hst hcur hres
    have hkind := nestResolve_some_kind _ _ _ _ _ hres
    unfold ParserS.Unwrap
    rw [if_pos (by rw [hcur]; simp)]
    obtain ⟨p', hadv, hcp, hsym, hcfg, hcase⟩ := advance_with_stream hn hk hst
    rw [hadv]
    dsimp only
    have hlift : ∃ ts2, p'.scanner.stream = some ts2 ∧
        nestResolve enc.start enc.stop 1 (p.next :: ts) =
          nestResolve enc.start enc.stop 1 (p'.curr :: p'.next :: ts2) := by
      rcases hcase with ⟨ts', hts, hst1⟩ | ⟨hts, hke, e, hst1, hek⟩
      · exact ⟨ts', hst1, by rw [hcp, hts]⟩
      · exact ⟨[e], hst1, by rw [hcp, hts]; exact nestResolve_cut hke h1 h2 1 p.next [] [e]⟩
    obtain ⟨ts2, hst2, hnr⟩ := hlift
    rw [hnr] at hres
    have hmeas : pMeasure p' < p.scanner.symbols.length + 3 := by
      have hb := pMeasure_bound p'
      rw [hsym] at hb
      omega
    obtain ⟨p2, heq, hc2⟩ := (unwrapGas_resolve (p.scanner.symbols.length + 3) enc.start
      enc.stop (p.curr.position + 1) 1 p' ts2 h1 h2 (by omega) (by rwa [hsym])
      (by rw [hcfg]; exact hk) hst2 hmeas).1 ct hres
    rw [hsym] at heq
    rw [heq]
    exact ⟨by simp [UnwrapRes.value?], by simp [UnwrapRes.state?, hc2], hkind.1⟩

/-- C6, witness. -/
theorem claim6_witness :
    ((0 : Int) ≤ EnclosureSquare.start) ∧ ((0 : Int) ≤ EnclosureSquare.stop) ∧
    (EnclosureSquare.start ≠ EnclosureSquare.stop) ∧
    Nonneg (codes "[string]") ∧
    Lexer.stream ⟨7, codes "[string]", ⟨false, none⟩⟩ =
      some [⟨93, [93], 7⟩, ⟨-1, [], 8⟩] ∧
    nestResolve EnclosureSquare.start EnclosureSquare.stop 1
      (⟨-2, codes "string", 1⟩ :: [⟨93, [93], 7⟩, ⟨-1, [], 8⟩]) = some ⟨93, [93], 7⟩ ∧
    ((ParserS.Unwrap ⟨⟨7, codes "[string]", ⟨false, none⟩⟩, ⟨91, [91], 0⟩,
        ⟨-2, codes "string", 1⟩⟩ EnclosureSquare).value? =
      some (((codes "[string]").take 7).drop 1) ∧
    (ParserS.Unwrap ⟨⟨7, codes "[string]", ⟨false, none⟩⟩, ⟨91, [91], 0⟩,
        ⟨-2, codes "string", 1⟩⟩ EnclosureSquare).state?.map ParserS.curr =
      some ⟨93, [93], 7⟩ ∧
    (⟨93, [93], 7⟩ : Token).kind = EnclosureSquare.stop) :=
  ⟨by decide, by decide, by decide, by decide, by decide, by decide,
    claim6_unwrap_success.2
      ⟨⟨7, codes "[string]", ⟨false, none⟩⟩, ⟨91, [91], 0⟩, ⟨-2, codes "string", 1⟩⟩
      EnclosureSquare [⟨93, [93], 7⟩, ⟨-1, [], 8⟩] ⟨93, [93], 7⟩
      (by decide) (by decide) (by decide) (by decide)
      (fun ident => (by decide : (TokenIdent : Int) ≠ TokenEoF)) (by decide)
      (by decide) (by decide)⟩

/-- C7, counterexample: the claim says `Unwrap` fails in exactly two cases
(missing start, missing end).  On `( 0` with parentheses the current token
is the opener and End-of-input is never reached, yet `Unwrap` aborts in a
scanner fault — a third failure mode the claim excludes. -/
theorem claim7_counterexample :
    (mkParser (codes "( 0") ⟨false, none⟩).map (fun p => p.Unwrap EnclosureParens) =
      some UnwrapRes.fault := by
  decide

/-- C7, amended: among `Unwrap`'s error conditions there are exactly two.
When the current token does not match the enclosure opener, `Unwrap`
returns the missing-start condition with the parser state untouched (the
state in the result is the input state: no tokens were consumed).  When
the nesting discipline reaches End-of-input before resolving (and the
scanner does not fault), it returns the missing-end condition.  When the
scanner faults, the operation aborts with neither condition
(`claim7_counterexample`); `Split` and the read-only operations have no
error channel at all. -/
theorem claim7_unwrap_failures :
    (∀ (p : ParserS) (enc : Enclosure), p.curr.kind ≠ enc.start →
      p.Unwrap enc = UnwrapRes.err UnwrapErr.missingStart p) ∧
    (∀ (p : ParserS) (enc : Enclosure) (ts : List Token),
      0 ≤ enc.start → 0 ≤ enc.stop →
      Nonneg p.scanner.symbols →
      (∀ ident, lookupKeyword p.scanner.config ident ≠ TokenEoF) →
      p.scanner.stream = some ts →
      p.curr.kind = enc.start →
      nestResolve enc.start enc.stop 1 (p.next :: ts) = none →
      (p.Unwrap enc).errc? = some UnwrapErr.missingEnd) := by
  constructor
  · intro p enc h
    unfold ParserS.Unwrap
    rw [if_neg (by simpa using h)]
  · intro p enc ts h1 h2 hn hk hst hcur hres
    unfold ParserS.Unwrap
    rw [if_pos (by rw [hcur]; simp)]
    obtain ⟨p', hadv, hcp, hsym, hcfg, hcase⟩ := advance_with_stream hn hk hst
    rw [hadv]
    dsimp only
    have hlift : ∃ ts2, p'.scanner.stream = some ts2 ∧
        nestResolve enc.start enc.stop 1 (p.next :: ts) =
          nestResolve enc.start enc.stop 1 (p'.curr :: p'.next :: ts2) := by
      rcases hcase with ⟨ts', hts, hst1⟩ | ⟨hts, hke, e, hst1, hek⟩
      · exact ⟨ts', hst1, by rw [hcp, hts]⟩
      · exact ⟨[e], hst1, by rw [hcp, hts]; exact nestResolve_cut hke h1 h2 1 p.next [] [e]⟩
    obtain ⟨ts2, hst2, hnr⟩ := hlift
    rw [hnr] at hres
    have hmeas : pMeasure p' < p.scanner.symbols.length + 3 := by
      have hb := pMeasure_bound p'
      rw [hsym] at hb
      omega
    obtain ⟨p2, heq⟩ := (unwrapGas_resolve (p.scanner.symbols.length + 3) enc.start
      enc.stop (p.curr.position + 1) 1 p' ts2 h1 h2 (by omega) (by rwa [hsym])
      (by rw [hcfg]; exact hk) hst2 hmeas).2 hres
    rw [heq]
    rfl

/-- C7, witness. -/
theorem claim7_witness :
    ((⟨91, [91], 0⟩ : Token).kind ≠ EnclosureParens.start) ∧
    ParserS.Unwrap ⟨⟨7, codes "[string]", ⟨false, none⟩⟩, ⟨91, [91], 0⟩,
        ⟨-2, codes "string", 1⟩⟩ EnclosureParens =
      UnwrapRes.err UnwrapErr.missingStart
        ⟨⟨7, codes "[string]", ⟨false, none⟩⟩, ⟨91, [91], 0⟩, ⟨-2, codes "string", 1⟩⟩ ∧
    Nonneg [40, 97] ∧
    Lexer.stream ⟨2, [40, 97], ⟨false, none⟩⟩ = some [⟨-1, [], 2⟩] ∧
    nestResolve EnclosureParens.start EnclosureParens.stop 1
      (⟨-2, [97], 1⟩ :: [⟨-1, [], 2⟩]) = none ∧
    (ParserS.Unwrap ⟨⟨2, [40, 97], ⟨false, none⟩⟩, ⟨40, [40], 0⟩, ⟨-2, [97], 1⟩⟩
        EnclosureParens).errc? = some UnwrapErr.missingEnd :=
  ⟨by decide,
    claim7_unwrap_failures.1
      ⟨⟨7, codes "[string]", ⟨false, none⟩⟩, ⟨91, [91], 0⟩, ⟨-2, codes "string", 1⟩⟩
      EnclosureParens (by decide),
    by decide, by decide, by decide,
    claim7_unwrap_failures.2
      ⟨⟨2, [40, 97], ⟨false, none⟩⟩, ⟨40, [40], 0⟩, ⟨-2, [97], 1⟩⟩
      EnclosureParens [⟨-1, [], 2⟩] (by decide) (by decide) (by decide)
      (fun ident => (by decide : (TokenIdent : Int) ≠ TokenEoF)) (by decide)
      (by decide) (by decide)⟩

/-- C8, counterexample: the claim says that past the end of input `next()`
does not advance the cursor and repeated calls yield End-of-input tokens
with the same position.  On the empty input the cursor is already at the
end (0), yet `next()` moves it to 1, and the second call produces an
End-of-input token at position 1 ≠ 0. -/
theorem claim8_counterexample :
    Lexer.next ⟨0, [], ⟨false, none⟩⟩ = some (EOFToken 0, ⟨1, [], ⟨false, none⟩⟩) ∧
    Lexer.next ⟨1, [], ⟨false, none⟩⟩ = some (EOFToken 1, ⟨2, [], ⟨false, none⟩⟩) ∧
    (EOFToken 1).position ≠ (EOFToken 0).position := by
  decide

/-- C8, amended: once the cursor is at or past the end of input, every call
to `next()` produces an End-of-input-kind token positioned at the current
cursor, and advances the cursor by exactly one (the End-of-input case falls
through to the shared `advanceCursor` call); the resulting state is again
at or past the end, so repeated calls yield End-of-input tokens
indefinitely, with strictly increasing positions rather than the same
position. -/
theorem claim8_eof_step {lx : Lexer} (h : lx.symbols.length ≤ lx.cursor) :
    lx.next = some (EOFToken lx.cursor, lx.adv) ∧
    (EOFToken lx.cursor).kind = TokenEoF ∧
    lx.adv.cursor = lx.cursor + 1 ∧
    lx.adv.symbols.length ≤ lx.adv.cursor :=
  ⟨next_atEnd h, rfl, adv_cursor lx, by rw [adv_cursor, adv_symbols]; omega⟩

/-- C8, witness. -/
theorem claim8_witness :
    (([] : List Int).length ≤ 3) ∧
    (Lexer.next ⟨3, [], ⟨false, none⟩⟩ = some (EOFToken 3, Lexer.adv ⟨3, [], ⟨false, none⟩⟩) ∧
      (EOFToken 3).kind = TokenEoF ∧
      (Lexer.adv ⟨3, [], ⟨false, none⟩⟩).cursor = 3 + 1 ∧
      (Lexer.adv ⟨3, [], ⟨false, none⟩⟩).symbols.length ≤
        (Lexer.adv ⟨3, [], ⟨false, none⟩⟩).cursor) :=
  ⟨by decide, claim8_eof_step (by decide)⟩

/-- C9: scanning from a double quote: if a closing quote exists later in
the input (`findQuoteFrom` gives the first one), the scan produces a
String-kind token whose literal is the full quoted text including both
quote characters and leaves the cursor one past the closing quote;
otherwise it produces a Malformed-kind token whose literal is everything
from the opening quote to the end of input, with the cursor one past the
last consumed character (the end of input). -/
theorem claim9_string_scan {lx : Lexer} (hn : Nonneg lx.symbols) (hq : lx.char = 34) :
    (∀ q, findQuoteFrom lx.symbols (lx.cursor + 1) = some q →
      lx.next = some (⟨TokenString, (lx.symbols.take (q + 1)).drop lx.cursor, lx.cursor⟩,
        ⟨q + 1, lx.symbols, lx.config⟩)) ∧
    (findQuoteFrom lx.symbols (lx.cursor + 1) = none →
      lx.next = some (⟨TokenMalformed, lx.symbols.drop lx.cursor, lx.cursor⟩,
        ⟨lx.symbols.length, lx.symbols, lx.config⟩)) := by
  have hlt : lx.cursor < lx.symbols.length :=
    char_ne_eof_in_bounds (by rw [hq]; decide)
  have hps : lx.postSpace = lx := by
    unfold Lexer.postSpace
    split
    · exact consumeSpaces_nonspace (by rw [hq]; decide)
    · rfl
  constructor
  · intro q hfq
    obtain ⟨hq1, hq2, hq3, hq4⟩ := findQuoteFrom_some hfq
    rw [Lexer.next, hps, Lexer.nextCore]
    rw [if_neg (by rw [hq]; decide), if_pos (by rw [hq]; rfl)]
    unfold Lexer.scanString
    rw [scanStr_found lx.gas lx lx.cursor q hn (by omega) hq2 hq3
      (fun k hk1 hk2 => hq4 k (by omega) hk2) (by unfold Lexer.gas; omega)]
    rfl
  · intro hfq
    have hq4 := findQuoteFrom_none hfq
    rw [Lexer.next, hps, Lexer.nextCore]
    rw [if_neg (by rw [hq]; decide), if_pos (by rw [hq]; rfl)]
    unfold Lexer.scanString
    rw [scanStr_notFound lx.gas lx lx.cursor hn hlt
      (fun k hk1 hk2 => hq4 k (by omega) hk2) (by unfold Lexer.gas; omega)]
    have hL : lx.symbols.length - 1 + 1 = lx.symbols.length := by omega
    unfold Lexer.adv
    rw [hL]

/-- C9, witness. -/
theorem claim9_witness :
    Nonneg (codes "\"ab\"x") ∧
    Lexer.char ⟨0, codes "\"ab\"x", ⟨false, none⟩⟩ = 34 ∧
    findQuoteFrom (codes "\"ab\"x") (0 + 1) = some 3 ∧
    Lexer.next ⟨0, codes "\"ab\"x", ⟨false, none⟩⟩ =
      some (⟨TokenString, ((codes "\"ab\"x").take (3 + 1)).drop 0, 0⟩,
        ⟨3 + 1, codes "\"ab\"x", ⟨false, none⟩⟩) :=
  ⟨by decide, by decide, by decide,
    (claim9_string_scan (by decide) (by decide)).1 3 (by decide)⟩

/-- C10: the spec says `Unparsed()` returns the character substring of the
original input from the current token's start position (counted in
characters).  The code slices the UTF-8 string by bytes at that character
index: on input `é]x`, after one committed advance the current token is `]`
at character position 1, the character substring from there is `]x`
(bytes `[93, 120]`), but `Unparsed` returns the bytes from byte offset 1 —
`[169, 93, 120]`, splitting the two-byte `é` — which is not the encoding
of any character substring. -/
theorem claim10_unparsed_bytes :
    ((mkParser (codes "é]x") ⟨false, none⟩).bind ParserS.advance).map
      (fun p1 => (p1.curr.position, p1.Unparsed)) = some (1, some [169, 93, 120]) ∧
    encodeUtf8 ((codes "é]x").drop 1) = [93, 120] ∧
    ([169, 93, 120] : List Int) ≠ [93, 120] := by
  decide

end Symbolizer
